import Mathlib

/-!
Verification development for the chatgpt-data-viewer backend
(`backend/main.py`).  The Python code is shallowly embedded: JSON values
become the inductive `JVal`, Python dicts become insertion-ordered
association lists, numeric epoch timestamps become rationals, and code
that can raise a Python exception returns `Except PyErr`.
-/

/-- A JSON-like Python value (the loosely typed records the service
manipulates).  Python `None` is `.null`; dicts are insertion-ordered
association lists with unique keys (as produced by `json.load`). -/
inductive JVal where
  | null : JVal
  | bool : Bool → JVal
  | num : ℚ → JVal
  | str : String → JVal
  | arr : List JVal → JVal
  | obj : List (String × JVal) → JVal

/-- Python exception kinds that the embedded code can raise. -/
inductive PyErr where
  | attributeError : PyErr
  | typeError : PyErr
  | valueError : PyErr
deriving DecidableEq, Repr

/-- Python truthiness (`bool(v)`) of a JSON value. -/
def JVal.truthy : JVal → Bool
  | .null => false
  | .bool b => b
  | .num q => q != 0
  | .str s => s != ""
  | .arr xs => !xs.isEmpty
  | .obj fs => !fs.isEmpty

mutual

/-- Structural equality of JSON values (Python `==` on JSON data). -/
def JVal.beq : JVal → JVal → Bool
  | .null, .null => true
  | .bool a, .bool b => a == b
  | .num a, .num b => a == b
  | .str a, .str b => a == b
  | .arr a, .arr b => JVal.beqList a b
  | .obj a, .obj b => JVal.beqFields a b
  | _, _ => false

/-- Elementwise equality of JSON arrays. -/
def JVal.beqList : List JVal → List JVal → Bool
  | [], [] => true
  | a :: as', b :: bs' => JVal.beq a b && JVal.beqList as' bs'
  | _, _ => false

/-- Fieldwise equality of JSON objects. -/
def JVal.beqFields : List (String × JVal) → List (String × JVal) → Bool
  | [], [] => true
  | (k, v) :: as', (k2, v2) :: bs' => k == k2 && JVal.beq v v2 && JVal.beqFields as' bs'
  | _, _ => false

end

/-- Lookup of a key in a Python dict: `none` when the key is absent
(distinct from a stored JSON `null`). -/
def pyLookup (fs : List (String × JVal)) (k : String) : Option JVal :=
  (fs.find? (fun kv => kv.1 == k)).map (fun kv => kv.2)

/-- Python `d.get(k, default)`. -/
def pyGetD (fs : List (String × JVal)) (k : String) (d : JVal) : JVal :=
  (pyLookup fs k).getD d

/-- Python `d.get(k)` (one-argument form): absent keys give `None`. -/
def pyGetN (fs : List (String × JVal)) (k : String) : JVal :=
  pyGetD fs k .null

/-- Rendering of a rational as Python renders the corresponding JSON
number (integers without a fractional part; the exact fractional
rendering is abstracted as numerator/denominator). -/
def numRepr (q : ℚ) : String :=
  if q.den = 1 then toString q.num else toString q.num ++ "/" ++ toString q.den

mutual

/-- Python `str(v)` on a JSON value.  Scalars follow CPython (`None`,
`True`, `False`, the number, the string itself); containers are rendered
recursively in Python's bracketed style. -/
def pyStr : JVal → String
  | .null => "None"
  | .bool b => if b then "True" else "False"
  | .num q => numRepr q
  | .str s => s
  | .arr xs => "[" ++ pyStrList xs ++ "]"
  | .obj fs => "\x7b" ++ pyStrFields fs ++ "\x7d"

/-- Comma-separated rendering of array elements. -/
def pyStrList : List JVal → String
  | [] => ""
  | [x] => pyStr x
  | x :: xs => pyStr x ++ ", " ++ pyStrList xs

/-- Comma-separated rendering of object fields. -/
def pyStrFields : List (String × JVal) → String
  | [] => ""
  | [(k, v)] => "\x27" ++ k ++ "\x27: " ++ pyStr v
  | (k, v) :: fs => "\x27" ++ k ++ "\x27: " ++ pyStr v ++ ", " ++ pyStrFields fs

end

/-! ## Calendar arithmetic

Model of the pieces of `datetime` / `calendar` used by the service
(`datetime.fromtimestamp(_, tz=timezone.utc)`, `strftime("%Y-%m-%d")`,
`calendar.monthrange`).  These stdlib functions are not part of the
repository, so they are modelled here by explicit proleptic-Gregorian
arithmetic: a UTC timestamp `t` falls on civil day `⌊t / 86400⌋` counted
from 1970-01-01, and that day number is converted to a year/month/day
triple by scanning 400-year-aligned blocks. -/

/-- Gregorian leap-year rule (`calendar.isleap`). -/
def isLeap (y : ℤ) : Bool :=
  (y % 4 == 0 && y % 100 != 0) || y % 400 == 0

/-- Number of days in a month (`calendar.monthrange(year, m)[1]`). -/
def monthLen (leap : Bool) (m : ℕ) : ℕ :=
  if m = 2 then (if leap then 29 else 28)
  else if m = 4 ∨ m = 6 ∨ m = 9 ∨ m = 11 then 30
  else 31

/-- Number of days in a calendar year. -/
def yearLen (y : ℤ) : ℕ :=
  if isLeap y then 366 else 365

/-- Given a zero-based day offset into a year, scan months `m`, `m+1`, …
(up to `fuel` of them) to locate the month and one-based day. -/
def scanMonths (leap : Bool) : ℕ → ℕ → ℕ → ℕ × ℕ
  | 0, m, rem => (m, rem + 1)
  | fuel + 1, m, rem =>
    if rem < monthLen leap m then (m, rem + 1)
    else scanMonths leap fuel (m + 1) (rem - monthLen leap m)

/-- Given a zero-based day offset `rem` from the start of year `y`, scan
years `y`, `y+1`, … (up to `fuel` of them) to locate the calendar date. -/
def scanYears : ℕ → ℤ → ℕ → ℤ × ℕ × ℕ
  | 0, y, _ => (y, 1, 1)
  | fuel + 1, y, rem =>
    if rem < yearLen y then (y, scanMonths (isLeap y) 11 1 rem)
    else scanYears fuel (y + 1) (rem - yearLen y)

/-- Convert a day number (days since 1970-01-01, possibly negative) to a
Gregorian `(year, month, day)`.  Any 400 consecutive Gregorian years
span exactly 146097 days, and day numbers `[146097·q, 146097·(q+1))`
correspond to years `[1970 + 400·q, 1970 + 400·(q+1))`. -/
def civilOfDays (z : ℤ) : ℤ × ℕ × ℕ :=
  let q := z / 146097
  let r := (z % 146097).toNat
  scanYears 400 (1970 + 400 * q) r

/-- The decimal digit character for `n < 10`. -/
def digitChar (n : ℕ) : Char :=
  Char.ofNat (48 + n)

/-- Two-digit zero-padded rendering (`%02d`, for values below 100). -/
def pad2 (n : ℕ) : List Char :=
  [digitChar (n / 10), digitChar (n % 10)]

/-- Four-digit zero-padded rendering (`%04d`, for values below 10000). -/
def pad4 (n : ℕ) : List Char :=
  [digitChar (n / 1000), digitChar (n / 100 % 10),
   digitChar (n / 10 % 10), digitChar (n % 10)]

/-- Character list of the `YYYY-MM-DD` key for a calendar date.  This is
the common rendering of `strftime("%Y-%m-%d")` in `_load_data` and the
f-string `f"{year}-{month:02d}-{day:02d}"` in `get_contribution`; the
two coincide for representable years (1000–9999). -/
def dateKeyChars (y : ℤ) (m d : ℕ) : List Char :=
  pad4 y.toNat ++ "-".data ++ pad2 m ++ "-".data ++ pad2 d

/-- The `YYYY-MM-DD` bucket key for a calendar date. -/
def dateKey (y : ℤ) (m d : ℕ) : String :=
  String.mk (dateKeyChars y m d)

/-- The day number `⌊t / 86400⌋` of an epoch timestamp, computed on the
raw numerator and denominator (so that it evaluates by kernel
reduction); `epochDays_eq_floor` below proves the two forms equal. -/
def epochDays (t : ℚ) : ℤ :=
  t.num / (86400 * (t.den : ℤ))

/-- The calendar date of an epoch timestamp, UTC
(`datetime.fromtimestamp(t, tz=timezone.utc)`). -/
def civilOfEpoch (t : ℚ) : ℤ × ℕ × ℕ :=
  civilOfDays (epochDays t)

/-- The `YYYY-MM-DD` day-bucket key of an epoch timestamp
(`datetime.fromtimestamp(t, tz=timezone.utc).strftime("%Y-%m-%d")`). -/
def epochDayKey (t : ℚ) : String :=
  let c := civilOfEpoch t
  dateKey c.1 c.2.1 c.2.2

/-- Numeric value of a digit character (inverse of `digitChar`). -/
def charDigit (c : Char) : ℕ :=
  c.toNat - 48

/-- Year component parsed back from a `YYYY-MM-DD` key
(`datetime.fromisoformat(key).year`, modelled on the four-digit-year
keys the store produces). -/
def keyYear (s : String) : ℤ :=
  match s.data with
  | c1 :: c2 :: c3 :: c4 :: _ =>
    (charDigit c1 * 1000 + charDigit c2 * 100 + charDigit c3 * 10 + charDigit c4 : ℕ)
  | _ => 0

/-- ISO-8601 rendering of the time-of-day seconds `s < 86400` (whole
seconds; the sub-second rendering of `isoformat` is abstracted by
dropping the fractional part, which no proved property inspects). -/
def timeChars (s : ℕ) : List Char :=
  pad2 (s / 3600) ++ ":".data ++ pad2 (s % 3600 / 60) ++ ":".data ++ pad2 (s % 60)

/-- Model of `datetime.fromtimestamp(t, tz=timezone.utc).isoformat()`:
`none` models the `OSError`/`OverflowError`/`ValueError` raised for
timestamps outside the representable range (years 1 to 9999). -/
def epochISO (t : ℚ) : Option String :=
  let z := epochDays t
  let c := civilOfDays z
  if c.1 < 1 ∨ 9999 < c.1 then none
  else some (String.mk (dateKeyChars c.1 c.2.1 c.2.2 ++ "T".data ++
    timeChars (t.num / (t.den : ℤ) - 86400 * z).toNat ++ "+00:00".data))

theorem ratFloor_eq_div (t : ℚ) : ⌊t⌋ = t.num / (t.den : ℤ) :=
  Rat.floor_def

/-- The fast day-number computation agrees with `⌊t / 86400⌋`. -/
theorem epochDays_eq_floor (t : ℚ) : epochDays t = ⌊t / 86400⌋ := by
  have h : t / 86400 = (t.num : ℚ) / ((86400 * t.den : ℕ) : ℚ) := by
    conv_lhs => rw [← Rat.num_div_den t]
    push_cast
    rw [div_div]
    ring_nf
  rw [h, Rat.floor_intCast_div_natCast]
  simp only [epochDays]
  push_cast
  rfl

/-! ## Stable sorting

Python's `list.sort(key=...)` is a stable sort.  Any stable sort is
characterised extensionally, so it is embedded as a stable insertion
sort parameterised by the Boolean strict comparison `lt` that the key
function induces. -/

/-- Insert `x` after every element strictly below it (stable: `x` lands
before existing elements of equal rank). -/
def insOrd (lt : α → α → Bool) (x : α) : List α → List α
  | [] => [x]
  | y :: ys => if lt y x then y :: insOrd lt x ys else x :: y :: ys

/-- Stable sort by the strict comparison `lt` (the model of Python's
`list.sort(key=...)`). -/
def stableSort (lt : α → α → Bool) : List α → List α
  | [] => []
  | x :: xs => insOrd lt x (stableSort lt xs)

theorem insOrd_perm (lt : α → α → Bool) (x : α) (l : List α) :
    (insOrd lt x l).Perm (x :: l) := by
  induction l with
  | nil => simp [insOrd]
  | cons y ys ih =>
    simp only [insOrd]
    split
    · exact ((ih.cons y).trans (List.Perm.swap x y ys))
    · exact List.Perm.refl _

theorem stableSort_perm (lt : α → α → Bool) (l : List α) :
    (stableSort lt l).Perm l := by
  induction l with
  | nil => exact List.Perm.refl _
  | cons x xs ih =>
    exact (insOrd_perm lt x (stableSort lt xs)).trans (ih.cons x)

theorem mem_stableSort (lt : α → α → Bool) (l : List α) (a : α) :
    a ∈ stableSort lt l ↔ a ∈ l :=
  (stableSort_perm lt l).mem_iff

theorem insOrd_pairwise (lt : α → α → Bool)
    (hasym : ∀ a b, lt a b = true → lt b a = false)
    (hneg : ∀ a b c, lt a b = false → lt b c = false → lt a c = false)
    (x : α) (l : List α) (hl : l.Pairwise (fun a b => lt b a = false)) :
    (insOrd lt x l).Pairwise (fun a b => lt b a = false) := by
  induction l with
  | nil => simp [insOrd]
  | cons y ys ih =>
    rcases List.pairwise_cons.mp hl with ⟨hy, hys⟩
    by_cases hlt : lt y x = true
    · simp only [insOrd, hlt, if_true]
      refine List.pairwise_cons.mpr ⟨?_, ih hys⟩
      intro z hz
      rcases List.mem_cons.mp ((insOrd_perm lt x ys).mem_iff.mp hz) with rfl | hz2
      · exact hasym y z hlt
      · exact hy z hz2
    · have hlt' : lt y x = false := Bool.eq_false_iff.mpr hlt
      simp only [insOrd, hlt', if_neg]
      simp only [Bool.false_eq_true, if_false]
      refine List.pairwise_cons.mpr ⟨?_, hl⟩
      intro z hz
      rcases List.mem_cons.mp hz with rfl | hz2
      · exact hlt'
      · exact hneg z y x (hy z hz2) hlt'

theorem stableSort_pairwise (lt : α → α → Bool)
    (hasym : ∀ a b, lt a b = true → lt b a = false)
    (hneg : ∀ a b c, lt a b = false → lt b c = false → lt a c = false)
    (l : List α) :
    (stableSort lt l).Pairwise (fun a b => lt b a = false) := by
  induction l with
  | nil => simp [stableSort]
  | cons x xs ih => exact insOrd_pairwise lt hasym hneg x _ ih

theorem insOrd_filter (lt : α → α → Bool) (p : α → Bool)
    (hcompat : ∀ a b, p a = true → p b = true → lt a b = false)
    (x : α) (l : List α) :
    (insOrd lt x l).filter p = (x :: l).filter p := by
  induction l with
  | nil => rfl
  | cons y ys ih =>
    simp only [insOrd]
    split
    · rename_i hlt
      by_cases hpy : p y = true
      · by_cases hpx : p x = true
        · have := hcompat y x hpy hpx
          rw [this] at hlt
          cases hlt
        · simp [List.filter, hpx, hpy, ih]
      · have hpy' : p y = false := Bool.eq_false_iff.mpr hpy
        simp [List.filter, hpy', ih]
    · rfl

theorem stableSort_filter (lt : α → α → Bool) (p : α → Bool)
    (hcompat : ∀ a b, p a = true → p b = true → lt a b = false)
    (l : List α) :
    (stableSort lt l).filter p = l.filter p := by
  induction l with
  | nil => rfl
  | cons x xs ih =>
    simp only [stableSort]
    rw [insOrd_filter lt p hcompat, List.filter, List.filter]
    cases h : p x <;> simp [ih]

theorem stableSort_of_pairwise (lt : α → α → Bool) (l : List α)
    (hl : l.Pairwise (fun a b => lt b a = false)) :
    stableSort lt l = l := by
  induction l with
  | nil => rfl
  | cons x xs ih =>
    rcases List.pairwise_cons.mp hl with ⟨hx, hxs⟩
    simp only [stableSort, ih hxs]
    cases xs with
    | nil => rfl
    | cons y ys =>
      have h0 : lt y x = false := hx y (List.mem_cons_self y ys)
      simp [insOrd, h0]

theorem stableSort_length (lt : α → α → Bool) (l : List α) :
    (stableSort lt l).length = l.length :=
  (stableSort_perm lt l).length_eq

/-! ## Message tree linearization (`ConversationService._linearize_messages`) -/

/-- One flattened message, as appended by `_linearize_messages`.  Raw
field values keep their Python shape (`.null` standing for `None`). -/
structure MessageRecord where
  id : JVal
  role : JVal
  name : JVal
  content : String
  createTime : JVal
  timestamp : Option String

/-- Python attribute access `v.get(k)`: raises `AttributeError` unless
`v` is a dict. -/
def jGet (v : JVal) (k : String) : Except PyErr JVal :=
  match v with
  | .obj fs => .ok (pyGetN fs k)
  | _ => .error .attributeError

/-- Python `v.get(k, d)`: raises `AttributeError` unless `v` is a dict. -/
def jGetD (v : JVal) (k : String) (d : JVal) : Except PyErr JVal :=
  match v with
  | .obj fs => .ok (pyGetD fs k d)
  | _ => .error .attributeError

/-- Contribution of one content part to the concatenated text:
a plain string is appended verbatim; a dict contributes its `"text"`
value (a `TypeError` if that value is not a string, as `+=` fails),
else `str()` of its `"content"` value, else nothing; any other part is
skipped. -/
def partText : JVal → Except PyErr String
  | .str s => .ok s
  | .obj fs =>
    match pyLookup fs "text" with
    | some (.str s) => .ok s
    | some _ => .error .typeError
    | none =>
      match pyLookup fs "content" with
      | some v => .ok (pyStr v)
      | none => .ok ""
  | _ => .ok ""

/-- Python iteration over a (truthy) `parts` value: lists yield their
elements, strings their characters, dicts their keys; numbers and
booleans are not iterable. -/
def iterParts : JVal → Except PyErr (List JVal)
  | .arr xs => .ok xs
  | .str s => .ok (s.data.map (fun c => .str (String.mk [c])))
  | .obj fs => .ok (fs.map (fun kv => JVal.str kv.1))
  | _ => .error .typeError

/-- Left fold concatenating part texts (`content_text += ...`). -/
def concatParts (acc : String) : List JVal → Except PyErr String
  | [] => .ok acc
  | p :: ps => do
    let t ← partText p
    concatParts (acc ++ t) ps

/-- The concatenated content text of a message (`if parts:` guard plus
the part loop). -/
def contentOfParts (parts : JVal) : Except PyErr String :=
  if parts.truthy then do
    let xs ← iterParts parts
    concatParts "" xs
  else .ok ""

/-- The optional ISO timestamp of a message: computed only when the raw
`create_time` is truthy and `> 0`; a non-numeric truthy value makes the
`> 0` comparison raise `TypeError`; conversion failures are caught and
leave the timestamp absent.  (`True` compares `> 0` as the integer 1.) -/
def timestampOf (ct : JVal) : Except PyErr (Option String) :=
  if ct.truthy then
    match ct with
    | .num q => .ok (if 0 < q then epochISO q else none)
    | .bool _ => .ok (epochISO 1)
    | _ => .error .typeError
  else .ok none

/-- Processing of a single mapping node: skip nodes without a truthy
`message` payload, otherwise build the flat record. -/
def nodeRecord (node : JVal) : Except PyErr (Option MessageRecord) := do
  let msg ← jGet node "message"
  if msg.truthy then
    match msg with
    | .obj mfs => do
      let author := pyGetD mfs "author" (.obj [])
      let content := pyGetD mfs "content" (.obj [])
      let parts ← jGetD content "parts" (.arr [])
      let text ← contentOfParts parts
      let ct := pyGetN mfs "create_time"
      let ts ← timestampOf ct
      let role ← jGet author "role"
      let name ← jGet author "name"
      pure (some ⟨pyGetN mfs "id", role, name, text, ct, ts⟩)
    | _ => .error .attributeError
  else
    pure none

/-- The unsorted message sequence extracted from the mapping, in node
insertion order. -/
def extractMessages : List (String × JVal) → Except PyErr (List MessageRecord)
  | [] => .ok []
  | kv :: rest => do
    let r ← nodeRecord kv.2
    let rs ← extractMessages rest
    match r with
    | some m => pure (m :: rs)
    | none => pure rs

/-- The sort key `m["createTime"] or 0`.  When extraction succeeds every
truthy stored `createTime` is numeric or boolean (anything else raised
`TypeError` at the `> 0` comparison), so the key is a rational. -/
def linKey (m : MessageRecord) : ℚ :=
  if m.createTime.truthy then
    match m.createTime with
    | .num q => q
    | .bool b => if b then 1 else 0
    | _ => 0
  else 0

/-- Strict comparison used by the final `messages.sort`. -/
def msgLt (a b : MessageRecord) : Bool :=
  linKey a < linKey b

/-- `ConversationService._linearize_messages`: extract one record per
node with a truthy message payload, then stable-sort ascending by
`m["createTime"] or 0`. -/
def linearizeMessages (mapping : JVal) : Except PyErr (List MessageRecord) :=
  match mapping with
  | .obj fs => do
    let raw ← extractMessages fs
    pure (stableSort msgLt raw)
  | _ => .error .attributeError

/-! ## Node counting (`get_stats` and `get_conversations_by_date`)

The two direct tree counts, `sum(1 for node in c.mapping.values() if
node.get("message"))`, appear once in `get_stats` and once in
`get_conversations_by_date`; the spec asks for them as separate code
paths, so both are embedded. -/

/-- The message-node count as computed inside `get_stats`. -/
def countNodesStats : List (String × JVal) → Except PyErr ℕ
  | [] => .ok 0
  | kv :: rest => do
    let msg ← jGet kv.2 "message"
    let n ← countNodesStats rest
    pure ((if msg.truthy then 1 else 0) + n)

/-- The message-node count as computed inside
`get_conversations_by_date` (the `messageCount` field). -/
def countNodesListing : List (String × JVal) → Except PyErr ℕ
  | [] => .ok 0
  | kv :: rest => do
    let msg ← jGet kv.2 "message"
    let n ← countNodesListing rest
    pure ((if msg.truthy then 1 else 0) + n)

/-- The `get_stats` count over a conversation's raw `mapping` value
(`.values()` raises unless it is a dict). -/
def mappingCountStats (mapping : JVal) : Except PyErr ℕ :=
  match mapping with
  | .obj fs => countNodesStats fs
  | _ => .error .attributeError

/-- The `get_conversations_by_date` count over a conversation's raw
`mapping` value. -/
def mappingCountListing (mapping : JVal) : Except PyErr ℕ :=
  match mapping with
  | .obj fs => countNodesListing fs
  | _ => .error .attributeError

/-! ## Corpus store (`ConversationService._load_data` and queries) -/

/-- One stored conversation (the `Conversation` dataclass).  Loosely
typed raw fields keep their JSON shape; `create_time` is the numeric
value that passed the `is None` guard. -/
structure Conversation where
  id : JVal
  title : JVal
  create_time : ℚ
  update_time : JVal
  model : JVal
  mapping : JVal
  is_archived : JVal

/-- The service state after `_load_data`: the conversation list and the
two derived indices, all insertion-ordered. -/
structure Store where
  conversations : List Conversation
  by_date : List (String × List Conversation)
  by_id : List (JVal × Conversation)

/-- Append to a `defaultdict(list)` bucket
(`self.by_date[date_key].append(c)`). -/
def bucketAppend (bd : List (String × List Conversation)) (k : String)
    (c : Conversation) : List (String × List Conversation) :=
  match bd with
  | [] => [(k, [c])]
  | (k2, cs) :: rest =>
    if k2 == k then (k2, cs ++ [c]) :: rest
    else (k2, cs) :: bucketAppend rest k c

/-- Dict assignment `self.by_id[c.id] = c`: replace the value of an
existing key in place, else append. -/
def idAssign (bi : List (JVal × Conversation)) (k : JVal)
    (c : Conversation) : List (JVal × Conversation) :=
  match bi with
  | [] => [(k, c)]
  | (k2, c2) :: rest =>
    if JVal.beq k2 k then (k2, c) :: rest
    else (k2, c2) :: idAssign rest k c

/-- Numeric reading of a raw `create_time`/`update_time` value, as
`datetime.fromtimestamp` accepts it (numbers, and booleans as 0/1);
`none` for values that make it raise `TypeError`. -/
def ctValue : JVal → Option ℚ
  | .num q => some q
  | .bool b => some (if b then 1 else 0)
  | _ => none

/-- Construction of the `Conversation` dataclass from a raw record
(`ctRaw` is the raw `create_time` value, the default for
`update_time`). -/
def recordConv (fs : List (String × JVal)) (ctRaw : JVal) (q : ℚ) : Conversation :=
  { id := pyGetD fs "id" (pyGetD fs "conversation_id" (.str ""))
    title := pyGetD fs "title" (.str "")
    create_time := q
    update_time := pyGetD fs "update_time" ctRaw
    model := pyGetN fs "default_model_slug"
    mapping := pyGetD fs "mapping" (.obj [])
    is_archived := pyGetD fs "is_archived" (.bool false) }

/-- One iteration of the `_load_data` loop: skip the record when
`create_time` is `None` (absent or null), otherwise register the
conversation in all three structures.  `datetime.fromtimestamp` raises
for non-numeric values (`TypeError`) and for timestamps whose year
falls outside 1–9999 (`ValueError`/`OverflowError`/`OSError`). -/
def ingestRecord (st : Store) (conv : JVal) : Except PyErr Store :=
  match conv with
  | .obj fs =>
    match pyGetN fs "create_time" with
    | .null => .ok st
    | ct =>
      match ctValue ct with
      | some q =>
        if (civilOfEpoch q).1 < 1 ∨ 9999 < (civilOfEpoch q).1 then .error .valueError
        else
          let c := recordConv fs ct q
          .ok { conversations := st.conversations ++ [c]
                by_id := idAssign st.by_id c.id c
                by_date := bucketAppend st.by_date (epochDayKey q) c }
      | none => .error .typeError
  | _ => .error .attributeError

/-- The `_load_data` loop from a given state. -/
def loadRecords : Store → List JVal → Except PyErr Store
  | st, [] => .ok st
  | st, r :: rs => do
    let st2 ← ingestRecord st r
    loadRecords st2 rs

/-- The store before ingest. -/
def emptyStore : Store :=
  ⟨[], [], []⟩

/-- `ConversationService._load_data` on already-parsed records. -/
def loadData (records : List JVal) : Except PyErr Store :=
  loadRecords emptyStore records

/-! ## Statistics (`ConversationService.get_stats`) -/

/-- One entry of the `topModels` list. -/
structure TopModelEntry where
  model : JVal
  count : ℕ

/-- The shape of the stats response. -/
structure StatsResponse where
  totalConversations : ℕ
  totalMessages : ℕ
  dateStart : String
  dateEnd : String
  topModels : List TopModelEntry

/-- `model_counts[c.model] += 1` on a `defaultdict(int)`. -/
def tallyModel (mc : List (JVal × ℕ)) (m : JVal) : List (JVal × ℕ) :=
  match mc with
  | [] => [(m, 1)]
  | (k, n) :: rest =>
    if JVal.beq k m then (k, n + 1) :: rest
    else (k, n) :: tallyModel rest m

/-- The model tally over the conversation list (`if c.model:` guard);
keys appear in order of each model's first truthy occurrence. -/
def modelCounts : List Conversation → List (JVal × ℕ) → List (JVal × ℕ)
  | [], mc => mc
  | c :: cs, mc =>
    modelCounts cs (if c.model.truthy then tallyModel mc c.model else mc)

/-- Sum of the per-conversation direct tree counts in `get_stats`. -/
def totalMessagesOf : List Conversation → Except PyErr ℕ
  | [] => .ok 0
  | c :: cs => do
    let n ← mappingCountStats c.mapping
    let rest ← totalMessagesOf cs
    pure (n + rest)

/-- Python `min` of a nonempty list (the `[]` case is unreachable). -/
def listMin : List ℚ → ℚ
  | [] => 0
  | t :: ts => ts.foldl min t

/-- Python `max` of a nonempty list (the `[]` case is unreachable). -/
def listMax : List ℚ → ℚ
  | [] => 0
  | t :: ts => ts.foldl max t

/-- Strict comparison for `sorted(model_counts.items(), key=lambda x: -x[1])`. -/
def tmLt (a b : JVal × ℕ) : Bool :=
  (-(a.2 : ℤ)) < (-(b.2 : ℤ))

/-- The `topModels` list: frequency-descending stable sort, first 10. -/
def topModelsOf (mc : List (JVal × ℕ)) : List TopModelEntry :=
  ((stableSort tmLt mc).take 10).map (fun kv => ⟨kv.1, kv.2⟩)

/-- `ConversationService.get_stats`. -/
def getStats (st : Store) : Except PyErr StatsResponse :=
  if st.conversations.isEmpty then
    .ok ⟨0, 0, "", "", []⟩
  else do
    let total ← totalMessagesOf st.conversations
    let ts := st.conversations.map (fun c => c.create_time)
    pure { totalConversations := st.conversations.length
           totalMessages := total
           dateStart := epochDayKey (listMin ts)
           dateEnd := epochDayKey (listMax ts)
           topModels := topModelsOf (modelCounts st.conversations []) }

/-! ## Date listing (`ConversationService.get_conversations_by_date`) -/

/-- One entry of the by-date listing. -/
structure ConvListEntry where
  id : JVal
  title : JVal
  createTime : Option String
  model : JVal
  messageCount : ℕ

/-- The by-date listing response. -/
structure ConvListResponse where
  date : String
  conversations : List ConvListEntry

/-- `self.by_date.get(date, [])` (`.get` on a `defaultdict` does not
insert). -/
def bucketGet (bd : List (String × List Conversation)) (k : String) :
    List Conversation :=
  ((bd.find? (fun kv => kv.1 == k)).map (fun kv => kv.2)).getD []

/-- Strict comparison for `sorted(convs, key=lambda c: -c.create_time)`. -/
def convLt (a b : Conversation) : Bool :=
  (-a.create_time) < (-b.create_time)

/-- One response entry (`title or "(no title)"`, ISO `createTime`, and
the direct tree `messageCount`). -/
def listEntry (c : Conversation) : Except PyErr ConvListEntry := do
  let n ← mappingCountListing c.mapping
  pure ⟨c.id, (if c.title.truthy then c.title else .str "(no title)"),
        epochISO c.create_time, c.model, n⟩

/-- The entry list in sorted order. -/
def listEntries : List Conversation → Except PyErr (List ConvListEntry)
  | [] => .ok []
  | c :: cs => do
    let e ← listEntry c
    let rest ← listEntries cs
    pure (e :: rest)

/-- `ConversationService.get_conversations_by_date`. -/
def getConversationsByDate (st : Store) (date : String) :
    Except PyErr ConvListResponse := do
  let entries ← listEntries (stableSort convLt (bucketGet st.by_date date))
  pure ⟨date, entries⟩

/-! ## Conversation detail (`ConversationService.get_conversation`) -/

/-- The conversation detail response. -/
structure ConvDetailResponse where
  id : JVal
  title : JVal
  createTime : Option String
  updateTime : Option String
  model : JVal
  messages : List MessageRecord
  isArchived : JVal

/-- Point lookup `self.by_id.get(conv_id)`. -/
def idGet (bi : List (JVal × Conversation)) (k : JVal) : Option Conversation :=
  (bi.find? (fun kv => JVal.beq kv.1 k)).map (fun kv => kv.2)

/-- `ConversationService.get_conversation`: `None` is the not-found
signal; otherwise full metadata plus the linearized messages. -/
def getConversation (st : Store) (cid : JVal) :
    Except PyErr (Option ConvDetailResponse) :=
  match idGet st.by_id cid with
  | none => .ok none
  | some c => do
    let msgs ← linearizeMessages c.mapping
    let ut ← match ctValue c.update_time with
      | some q => Except.ok (epochISO q)
      | none => Except.error PyErr.typeError
    pure (some ⟨c.id, (if c.title.truthy then c.title else .str "(no title)"),
      epochISO c.create_time, ut, c.model, msgs, c.is_archived⟩)

/-! ## Contribution heat-map (`ConversationService.get_contribution`) -/

/-- One `{date, count}` entry. -/
structure DayEntry where
  date : String
  count : ℕ

/-- The contribution response. -/
structure ContributionResponse where
  year : ℤ
  days : List DayEntry
  maxCount : ℕ
  total : ℕ

/-- The `(month, day)` pairs of a year, in calendar order (the nested
`for month in range(1, 13): for day in range(1, days_in_month + 1)`
loops). -/
def daysOfYear (year : ℤ) : List (ℕ × ℕ) :=
  (List.range' 1 12).flatMap
    (fun m => (List.range' 1 (monthLen (isLeap year) m)).map (fun d => (m, d)))

/-- The initial `all_days` dict: every day key of the year mapped to 0,
in calendar order. -/
def allDays0 (year : ℤ) : List (String × ℕ) :=
  (daysOfYear year).map (fun md => (dateKey year md.1 md.2, 0))

/-- Dict assignment `all_days[date_key] = v` (replace in place or
append). -/
def updDay (ad : List (String × ℕ)) (k : String) (n : ℕ) : List (String × ℕ) :=
  match ad with
  | [] => [(k, n)]
  | (k2, v) :: rest =>
    if k2 == k then (k2, n) :: rest
    else (k2, v) :: updDay rest k n

/-- The `for date_key, convs in self.by_date.items()` fill loop, guarded
by `fromisoformat(date_key).year == year`. -/
def fillDays (year : ℤ) :
    List (String × ℕ) → List (String × List Conversation) → List (String × ℕ)
  | ad, [] => ad
  | ad, (k, convs) :: rest =>
    fillDays year (if keyYear k == year then updDay ad k convs.length else ad) rest

/-- Python string comparison (lexicographic by code point). -/
def charsLt : List Char → List Char → Bool
  | [], [] => false
  | [], _ :: _ => true
  | _ :: _, [] => false
  | a :: as1, b :: bs1 =>
    if a < b then true else if b < a then false else charsLt as1 bs1

/-- Strict comparison for `days.sort(key=lambda x: x["date"])`. -/
def dayLt (a b : DayEntry) : Bool :=
  charsLt a.date.data b.date.data

/-- `ConversationService.get_contribution`. -/
def getContribution (st : Store) (year : ℤ) : ContributionResponse :=
  let ad := fillDays year (allDays0 year) st.by_date
  let counts := ad.map (fun kv => kv.2)
  { year := year
    days := stableSort dayLt (ad.map (fun kv => ⟨kv.1, kv.2⟩))
    maxCount := if ad.isEmpty then 0 else counts.foldl Nat.max 0
    total := counts.sum }

/-! ## Full-text index (`_load_or_create_index`, `_save_index`, `search`)

Modelled from the spec: the `minsearch` library and the `pickle`
(de)serialization of the side-car index artifact are external to the
repository.  Following spec section 4.3, the index is the set of fitted
documents with term-frequency scoring, a 3x title boost over content,
score-descending ranking and a result cap; the persisted artifact is a
structural encoding of the fitted index. -/

/-- One searchable document, as prepared in `_load_or_create_index`. -/
structure SearchDoc where
  id : JVal
  title : JVal
  content : String
  createTime : Option String
  model : JVal

/-- The space-joined concatenation of the non-empty linearized message
contents (`" ".join(content_parts)`). -/
def docContent (msgs : List MessageRecord) : String :=
  String.intercalate " " ((msgs.map (fun m => m.content)).filter (fun s => s != ""))

/-- The document for one conversation. -/
def buildDoc (c : Conversation) : Except PyErr SearchDoc := do
  let msgs ← linearizeMessages c.mapping
  pure ⟨c.id, (if c.title.truthy then c.title else .str ""), docContent msgs,
        epochISO c.create_time, (if c.model.truthy then c.model else .str "")⟩

/-- The document list passed to `Index.fit`. -/
def buildDocs : List Conversation → Except PyErr (List SearchDoc)
  | [] => .ok []
  | c :: cs => do
    let d ← buildDoc c
    let ds ← buildDocs cs
    pure (d :: ds)

/-- Modelled from the spec: the fitted full-text index (`minsearch.Index`
after `fit`), extensionally the fitted document list. -/
structure FTIndex where
  docs : List SearchDoc

/-- Modelled from the spec: `Index.fit(documents)`. -/
def fitIndex (docs : List SearchDoc) : FTIndex :=
  ⟨docs⟩

/-- Whitespace tokenization of free text. -/
def tokens (s : String) : List String :=
  (s.splitOn " ").filter (fun t => t != "")

/-- Number of occurrences of a term in a token list. -/
def countOcc (t : String) (ts : List String) : ℕ :=
  (ts.filter (fun x => x == t)).length

/-- Modelled from the spec: term-frequency score of a document for a
query, with title matches boosted 3x over content matches
(`boost = {"title": 3.0, "content": 1.0}`). -/
def docScore (q : String) (d : SearchDoc) : ℚ :=
  ((tokens q).map
    (fun t => (3 * countOcc t (tokens (pyStr d.title)) + countOcc t (tokens d.content) : ℚ))).sum

/-- Strict comparison ranking documents by descending score. -/
def scoreLt (q : String) (a b : SearchDoc) : Bool :=
  (-docScore q a) < (-docScore q b)

/-- Modelled from the spec: `Index.search(query, boost_dict, num_results)`
— matching documents ranked by descending boosted score, capped at
`limit`. -/
def searchIndex (idx : FTIndex) (q : String) (limit : ℕ) : List SearchDoc :=
  (stableSort (scoreLt q) (idx.docs.filter (fun d => 0 < docScore q d))).take limit

/-- Modelled from the spec: the persisted side-car artifact of one
document (`pickle` of the fitted structure), a structural encoding. -/
def serializeDoc (d : SearchDoc) : JVal :=
  .obj [("id", d.id), ("title", d.title), ("content", .str d.content),
        ("createTime", match d.createTime with | some s => JVal.str s | none => JVal.null),
        ("model", d.model)]

/-- Decoding of one persisted document; `none` models a corrupt
artifact. -/
def deserializeDoc : JVal → Option SearchDoc
  | .obj [("id", i), ("title", t), ("content", .str c), ("createTime", ct), ("model", m)] =>
    match ct with
    | .str s => some ⟨i, t, c, some s, m⟩
    | .null => some ⟨i, t, c, none, m⟩
    | _ => none
  | _ => none

/-- Modelled from the spec: serialization of the fitted index to the
side-car artifact. -/
def serializeIndex (idx : FTIndex) : JVal :=
  .arr (idx.docs.map serializeDoc)

/-- Decoding of a document list from the artifact. -/
def deserializeDocs : List JVal → Option (List SearchDoc)
  | [] => some []
  | v :: vs => do
    let d ← deserializeDoc v
    let ds ← deserializeDocs vs
    pure (d :: ds)

/-- Modelled from the spec: restoring the index from the side-car
artifact; `none` models a load failure (which triggers a rebuild). -/
def deserializeIndex : JVal → Option FTIndex
  | .arr vs => (deserializeDocs vs).map (fun ds => ⟨ds⟩)
  | _ => none

/-! ## Well-formedness of message nodes

The linearizer is total only on mappings whose nodes avoid the shapes
that make the Python raise; this predicate captures exactly those
shapes. -/

/-- A content part the part loop can process without raising: any
non-dict part, or a dict whose `"text"` entry (if present) is a
string. -/
def wfPart : JVal → Bool
  | .obj fs =>
    match pyLookup fs "text" with
    | some (.str _) => true
    | some _ => false
    | none => true
  | _ => true

/-- A `parts` value the part loop can process: anything falsy, or an
iterable whose dict elements are well-formed (iterating a string or a
dict yields strings, which are always fine). -/
def wfParts : JVal → Bool
  | .arr ps => ps.all wfPart
  | .num q => q == 0
  | .bool b => !b
  | _ => true

/-- A truthy `message` payload the linearizer can process: a dict whose
`author` and `content` values (when present) are dicts, whose `parts`
are well-formed, and whose truthy `create_time` is numeric or boolean. -/
def wfMessage (msg : JVal) : Bool :=
  if msg.truthy then
    match msg with
    | .obj mfs =>
      (match pyGetD mfs "author" (.obj []) with
       | .obj _ => true
       | _ => false) &&
      (match pyGetD mfs "content" (.obj []) with
       | .obj cfs => wfParts (pyGetD cfs "parts" (.arr []))
       | _ => false) &&
      (let ct := pyGetN mfs "create_time"
       !ct.truthy || (ctValue ct).isSome)
    | _ => false
  else true

/-- A mapping node the linearizer can process. -/
def wfNode : JVal → Bool
  | .obj fs => wfMessage (pyGetN fs "message")
  | _ => false

/-- A mapping the linearizer can process without raising. -/
def wfMapping : JVal → Bool
  | .obj fs => fs.all (fun kv => wfNode kv.2)
  | _ => false

/-! ## Plumbing lemmas -/

theorem exceptBind_ok {α β : Type} {x : Except PyErr α} {f : α → Except PyErr β} {b : β}
    (h : (x >>= f) = .ok b) : ∃ a, x = .ok a ∧ f a = .ok b := by
  cases x with
  | ok a => exact ⟨a, rfl, h⟩
  | error e => simp [Bind.bind, Except.bind] at h

theorem msgLt_asym (a b : MessageRecord) (h : msgLt a b = true) : msgLt b a = false := by
  simp only [msgLt, decide_eq_true_eq] at h
  simp only [msgLt, decide_eq_false_iff_not]
  exact not_lt_of_gt h

theorem msgLt_negtrans (a b c : MessageRecord) (hab : msgLt a b = false)
    (hbc : msgLt b c = false) : msgLt a c = false := by
  simp only [msgLt, decide_eq_false_iff_not, not_lt] at hab hbc ⊢
  exact le_trans hbc hab

/-- The linearizer on a dict mapping is the stable sort of the extracted
sequence. -/
theorem linearize_eq_sort (fs : List (String × JVal)) (raw msgs : List MessageRecord)
    (hraw : extractMessages fs = .ok raw)
    (hlin : linearizeMessages (.obj fs) = .ok msgs) :
    msgs = stableSort msgLt raw := by
  simp only [linearizeMessages, hraw] at hlin
  simp only [Bind.bind, Except.bind, pure, Except.pure, Except.ok.injEq] at hlin
  exact hlin.symm

/-! ## Claim C1: message ordering in the linearized sequence -/

/-- A mapping with one message whose `create_time` is present and
negative and one truthy message with no `create_time` at all. -/
def c1cexMapping : JVal :=
  .obj [("n1", .obj [("message", .obj [("create_time", .num (-5))])]),
        ("n2", .obj [("message", .obj [("id", .str "m2")])])]

/-- Claim C1 (counterexample).  The claim asserts that messages with a
missing `createTime` sort before every message with a present
`createTime`.  On this mapping the linearizer returns the message with
the present `createTime = -5` first and the message with the missing
`createTime` second, because the sort key of a missing value is 0,
which is larger than -5. -/
theorem c1_counterexample :
    linearizeMessages c1cexMapping =
      .ok [⟨.null, .null, .null, "", .num (-5), none⟩,
           ⟨.str "m2", .null, .null, "", .null, none⟩] := by
  rfl

/-- Claim C1 (amended): the linearized sequence is the stable ascending
sort of the extracted sequence by the key `createTime or 0`: it is a
permutation of the extraction, pairwise non-decreasing in the key,
messages of equal key keep their extraction order, and a missing or
falsy `createTime` contributes sort key 0 (hence sorts before every
positive `createTime`, though not before a negative one). -/
theorem c1_amended_sort (fs : List (String × JVal)) (raw msgs : List MessageRecord)
    (hraw : extractMessages fs = .ok raw)
    (hlin : linearizeMessages (.obj fs) = .ok msgs) :
    msgs.Pairwise (fun a b => linKey a ≤ linKey b) ∧
    msgs.Perm raw ∧
    (∀ k : ℚ, msgs.filter (fun m => linKey m == k) = raw.filter (fun m => linKey m == k)) ∧
    (∀ m ∈ msgs, m.createTime.truthy = false → linKey m = 0) := by
  have hs := linearize_eq_sort fs raw msgs hraw hlin
  subst hs
  refine ⟨?_, stableSort_perm msgLt raw, ?_, ?_⟩
  · have hp := stableSort_pairwise msgLt msgLt_asym msgLt_negtrans raw
    exact hp.imp (fun {a b} h => by
      simp only [msgLt, decide_eq_false_iff_not, not_lt] at h
      exact h)
  · intro k
    refine stableSort_filter msgLt _ ?_ raw
    intro a b ha hb
    simp only [beq_iff_eq] at ha hb
    simp only [msgLt, decide_eq_false_iff_not, not_lt, ha, hb]
    exact le_refl k
  · intro m _ hm
    simp only [linKey, hm, if_false]
    simp [hm]

/-- Two messages whose timestamps are out of insertion order. -/
def c1wfs : List (String × JVal) :=
  [("a", .obj [("message", .obj [("create_time", .num 2)])]),
   ("b", .obj [("message", .obj [("create_time", .num 1)])])]

/-- The extraction of `c1wfs`, in insertion order. -/
def c1wraw : List MessageRecord :=
  [⟨.null, .null, .null, "", .num 2, some "1970-01-01T00:00:02+00:00"⟩,
   ⟨.null, .null, .null, "", .num 1, some "1970-01-01T00:00:01+00:00"⟩]

/-- The linearization of `c1wfs`, in timestamp order. -/
def c1wmsgs : List MessageRecord :=
  [⟨.null, .null, .null, "", .num 1, some "1970-01-01T00:00:01+00:00"⟩,
   ⟨.null, .null, .null, "", .num 2, some "1970-01-01T00:00:02+00:00"⟩]

/-- Witness for `c1_amended_sort` at a concrete mapping. -/
theorem c1_witness :
    c1wmsgs.Pairwise (fun a b => linKey a ≤ linKey b) ∧
    c1wmsgs.Perm c1wraw ∧
    (∀ k : ℚ, c1wmsgs.filter (fun m => linKey m == k) =
      c1wraw.filter (fun m => linKey m == k)) ∧
    (∀ m ∈ c1wmsgs, m.createTime.truthy = false → linKey m = 0) :=
  c1_amended_sort c1wfs c1wraw c1wmsgs (by rfl) (by rfl)

/-! ## Claim C2: totality of the linearizer -/

/-- A mapping with a message whose `content` is a string rather than an
object. -/
def c2cexMapping : JVal :=
  .obj [("n1", .obj [("message", .obj [("content", .str "hi")])])]

/-- Claim C2 (counterexample).  The claim asserts that no error is
raised for malformed nodes, naming a message whose content is not an
object as an example.  On this mapping the linearizer raises
(`content.get("parts", [])` is an attribute error on a string), so the
enclosing conversation is not processed. -/
theorem c2_counterexample :
    linearizeMessages c2cexMapping = .error .attributeError := by
  rfl

theorem wfPart_ok (p : JVal) (h : wfPart p = true) : ∃ s, partText p = .ok s := by
  cases p with
  | obj fs =>
    simp only [wfPart] at h
    cases htext : pyLookup fs "text" with
    | none =>
      cases hcont : pyLookup fs "content" with
      | none => exact ⟨"", by simp [partText, htext, hcont]⟩
      | some v => exact ⟨pyStr v, by simp [partText, htext, hcont]⟩
    | some v =>
      cases v with
      | str s => exact ⟨s, by simp [partText, htext]⟩
      | null => rw [htext] at h; cases h
      | bool b => rw [htext] at h; cases h
      | num q => rw [htext] at h; cases h
      | arr xs => rw [htext] at h; cases h
      | obj fs2 => rw [htext] at h; cases h
  | null => exact ⟨"", rfl⟩
  | bool b => exact ⟨"", rfl⟩
  | num q => exact ⟨"", rfl⟩
  | str s => exact ⟨s, rfl⟩
  | arr xs => exact ⟨"", rfl⟩

theorem concatParts_ok (ps : List JVal) (acc : String)
    (h : ps.all wfPart = true) : ∃ s, concatParts acc ps = .ok s := by
  induction ps generalizing acc with
  | nil => exact ⟨acc, rfl⟩
  | cons p rest ih =>
    simp only [List.all_cons, Bool.and_eq_true] at h
    obtain ⟨t, ht⟩ := wfPart_ok p h.1
    obtain ⟨s, hs⟩ := ih (acc ++ t) h.2
    exact ⟨s, by simp [concatParts, ht, Bind.bind, Except.bind, hs]⟩

theorem contentOfParts_ok (parts : JVal) (h : wfParts parts = true) :
    ∃ s, contentOfParts parts = .ok s := by
  cases parts with
  | arr ps =>
    by_cases htr : (JVal.arr ps).truthy = true
    · obtain ⟨s, hs⟩ := concatParts_ok ps "" (by simpa [wfParts] using h)
      exact ⟨s, by simp [contentOfParts, htr, iterParts, Bind.bind, Except.bind, hs]⟩
    · exact ⟨"", by simp [contentOfParts, Bool.eq_false_iff.mpr htr]⟩
  | str s =>
    by_cases htr : (JVal.str s).truthy = true
    · have hall : (s.data.map (fun c => JVal.str (String.mk [c]))).all wfPart = true := by
        rw [List.all_eq_true]
        intro x hx
        rcases List.mem_map.mp hx with ⟨c, _, rfl⟩
        rfl
      obtain ⟨t, ht⟩ := concatParts_ok _ "" hall
      exact ⟨t, by simp [contentOfParts, htr, iterParts, Bind.bind, Except.bind, ht]⟩
    · exact ⟨"", by simp [contentOfParts, Bool.eq_false_iff.mpr htr]⟩
  | obj fs =>
    by_cases htr : (JVal.obj fs).truthy = true
    · have hall : (fs.map (fun kv => JVal.str kv.1)).all wfPart = true := by
        rw [List.all_eq_true]
        intro x hx
        rcases List.mem_map.mp hx with ⟨kv, _, rfl⟩
        rfl
      obtain ⟨t, ht⟩ := concatParts_ok _ "" hall
      exact ⟨t, by simp [contentOfParts, htr, iterParts, Bind.bind, Except.bind, ht]⟩
    · exact ⟨"", by simp [contentOfParts, Bool.eq_false_iff.mpr htr]⟩
  | num q =>
    simp only [wfParts, beq_iff_eq] at h
    exact ⟨"", by simp [contentOfParts, JVal.truthy, h]⟩
  | bool b =>
    simp only [wfParts, Bool.not_eq_true'] at h
    exact ⟨"", by simp [contentOfParts, JVal.truthy, h]⟩
  | null => exact ⟨"", by simp [contentOfParts, JVal.truthy]⟩

theorem timestampOf_ok (ct : JVal)
    (h : (!ct.truthy || (ctValue ct).isSome) = true) :
    ∃ o, timestampOf ct = .ok o := by
  by_cases htr : ct.truthy = true
  · simp only [htr, Bool.not_true, Bool.false_or, Option.isSome_iff_exists] at h
    cases ct with
    | num q =>
      exact ⟨if 0 < q then epochISO q else none, by simp [timestampOf, htr]⟩
    | bool b => exact ⟨epochISO 1, by simp [timestampOf, htr]⟩
    | null => obtain ⟨q, hq⟩ := h; cases hq
    | str s => obtain ⟨q, hq⟩ := h; cases hq
    | arr xs => obtain ⟨q, hq⟩ := h; cases hq
    | obj fs => obtain ⟨q, hq⟩ := h; cases hq
  · exact ⟨none, by simp [timestampOf, Bool.eq_false_iff.mpr htr]⟩

theorem nodeRecord_ok (node : JVal) (h : wfNode node = true) :
    ∃ r, nodeRecord node = .ok r := by
  cases node with
  | obj fs =>
    simp only [wfNode] at h
    cases hmsg : pyGetN fs "message" with
    | null =>
      exact ⟨none, by
        simp [nodeRecord, jGet, hmsg, JVal.truthy, Bind.bind, Except.bind,
          pure, Except.pure]⟩
    | bool b =>
      rw [hmsg] at h
      cases b with
      | false =>
        exact ⟨none, by
          simp [nodeRecord, jGet, hmsg, JVal.truthy, Bind.bind, Except.bind,
            pure, Except.pure]⟩
      | true => simp [wfMessage, JVal.truthy] at h
    | num q =>
      rw [hmsg] at h
      by_cases hq : q = 0
      · exact ⟨none, by
          simp [nodeRecord, jGet, hmsg, JVal.truthy, hq, Bind.bind, Except.bind,
            pure, Except.pure]⟩
      · simp [wfMessage, JVal.truthy, hq] at h
    | str s =>
      rw [hmsg] at h
      by_cases hs : s = ""
      · exact ⟨none, by
          simp [nodeRecord, jGet, hmsg, JVal.truthy, hs, Bind.bind, Except.bind,
            pure, Except.pure]⟩
      · simp [wfMessage, JVal.truthy, hs] at h
    | arr xs =>
      rw [hmsg] at h
      cases xs with
      | nil =>
        exact ⟨none, by
          simp [nodeRecord, jGet, hmsg, JVal.truthy, List.isEmpty, Bind.bind,
            Except.bind, pure, Except.pure]⟩
      | cons x rest => simp [wfMessage, JVal.truthy] at h
    | obj mfs =>
      rw [hmsg] at h
      by_cases htr : (JVal.obj mfs).truthy = true
      · simp only [wfMessage, htr, if_pos, Bool.and_eq_true] at h
        obtain ⟨⟨hauthor, hcontent⟩, hct⟩ := h
        cases hau : pyGetD mfs "author" (.obj []) with
        | obj afs =>
          cases hco : pyGetD mfs "content" (.obj []) with
          | obj cfs =>
            rw [hco] at hcontent
            obtain ⟨s, hs⟩ := contentOfParts_ok _ hcontent
            obtain ⟨o, ho⟩ := timestampOf_ok _ hct
            refine ⟨some ⟨pyGetN mfs "id", pyGetN afs "role", pyGetN afs "name", s,
              pyGetN mfs "create_time", o⟩, ?_⟩
            simp [nodeRecord, jGet, hmsg, htr, hau, hco, jGetD, Bind.bind, Except.bind,
              hs, ho, pure, Except.pure]
          | null => rw [hco] at hcontent; cases hcontent
          | bool b => rw [hco] at hcontent; cases hcontent
          | num q => rw [hco] at hcontent; cases hcontent
          | str s => rw [hco] at hcontent; cases hcontent
          | arr xs => rw [hco] at hcontent; cases hcontent
        | null => rw [hau] at hauthor; cases hauthor
        | bool b => rw [hau] at hauthor; cases hauthor
        | num q => rw [hau] at hauthor; cases hauthor
        | str s => rw [hau] at hauthor; cases hauthor
        | arr xs => rw [hau] at hauthor; cases hauthor
      · have hnil : mfs = [] := by
          simpa [JVal.truthy, List.isEmpty_iff] using htr
        subst hnil
        exact ⟨none, by
          simp [nodeRecord, jGet, hmsg, JVal.truthy, List.isEmpty, Bind.bind,
            Except.bind, pure, Except.pure]⟩
  | null => cases h
  | bool b => cases h
  | num q => cases h
  | str s => cases h
  | arr xs => cases h

theorem extractMessages_ok (fs : List (String × JVal))
    (h : fs.all (fun kv => wfNode kv.2) = true) :
    ∃ raw, extractMessages fs = .ok raw := by
  induction fs with
  | nil => exact ⟨[], rfl⟩
  | cons kv rest ih =>
    simp only [List.all_cons, Bool.and_eq_true] at h
    obtain ⟨r, hr⟩ := nodeRecord_ok kv.2 h.1
    obtain ⟨raw, hraw⟩ := ih h.2
    cases r with
    | some m =>
      exact ⟨m :: raw, by simp [extractMessages, hr, hraw, Bind.bind, Except.bind,
        pure, Except.pure]⟩
    | none =>
      exact ⟨raw, by simp [extractMessages, hr, hraw, Bind.bind, Except.bind,
        pure, Except.pure]⟩

/-- Claim C2 (amended): the linearizer is total on mappings whose nodes
are well-formed in the sense of `wfMapping` — in particular content
parts that are neither strings nor dicts degrade to an empty
contribution rather than failing.  It does raise (aborting the
enclosing conversation) on the malformed shapes excluded by
`wfMapping`: a non-dict node or truthy non-dict message, a non-dict
`author` or `content`, a dict part whose `"text"` value is not a
string, a truthy non-iterable `parts`, or a truthy non-numeric
`create_time` (see `c2_counterexample`). -/
theorem c2_amended_total (m : JVal) (h : wfMapping m = true) :
    ∃ msgs, linearizeMessages m = .ok msgs := by
  cases m with
  | obj fs =>
    obtain ⟨raw, hraw⟩ := extractMessages_ok fs (by simpa [wfMapping] using h)
    exact ⟨stableSort msgLt raw, by
      simp [linearizeMessages, hraw, Bind.bind, Except.bind, pure, Except.pure]⟩
  | null => cases h
  | bool b => cases h
  | num q => cases h
  | str s => cases h
  | arr xs => cases h

/-- A well-formed mapping exercising the degradation paths: a structural
node, a numeric part (skipped), a dict part with a `"text"` string, and
a message with no `create_time`. -/
def c2wMapping : JVal :=
  .obj [("root", .obj []),
        ("n1", .obj [("message", .obj
          [("author", .obj [("role", .str "user")]),
           ("content", .obj [("parts", .arr
             [.str "a", .num 7, .obj [("text", .str "b")]])]),
           ("create_time", .num 3)])]),
        ("n2", .obj [("message", .obj [("id", .str "m2")])])]

/-- Witness for `c2_amended_total` at a concrete mapping. -/
theorem c2_witness :
    wfMapping c2wMapping = true ∧ ∃ msgs, linearizeMessages c2wMapping = .ok msgs :=
  ⟨by rfl, c2_amended_total c2wMapping (by rfl)⟩

/-! ## Claim C3: agreement of the two counting paths with the linearizer -/

theorem exceptBind_ok_eq {α β : Type} (a : α) (f : α → Except PyErr β) :
    ((Except.ok a : Except PyErr α) >>= f) = f a := rfl

theorem exceptBind_err_eq {α β : Type} (e : PyErr) (f : α → Except PyErr β) :
    ((Except.error e : Except PyErr α) >>= f) = .error e := rfl

theorem exceptPure_eq {α : Type} (a : α) : (pure a : Except PyErr α) = .ok a := rfl

/-- The two textually identical counting loops agree. -/
theorem countNodes_agree (fs : List (String × JVal)) :
    countNodesStats fs = countNodesListing fs := by
  induction fs with
  | nil => rfl
  | cons kv rest ih => simp [countNodesStats, countNodesListing, ih]

/-- A successful `nodeRecord` yields a record exactly when the node's
`message` value is truthy. -/
theorem nodeRecord_some_iff (node : JVal) (r : Option MessageRecord)
    (h : nodeRecord node = .ok r) :
    ∃ fs, node = .obj fs ∧ r.isSome = (pyGetN fs "message").truthy := by
  cases node with
  | obj fs =>
    refine ⟨fs, rfl, ?_⟩
    simp only [nodeRecord, jGet, exceptBind_ok_eq] at h
    by_cases htr : (pyGetN fs "message").truthy = true
    · rw [htr, if_pos rfl] at h
      cases hmsg : pyGetN fs "message" with
      | obj mfs =>
        rw [hmsg] at h
        obtain ⟨parts, hp, h⟩ := exceptBind_ok h
        obtain ⟨text, ht, h⟩ := exceptBind_ok h
        obtain ⟨ts, hts, h⟩ := exceptBind_ok h
        obtain ⟨role, hro, h⟩ := exceptBind_ok h
        obtain ⟨name, hna, h⟩ := exceptBind_ok h
        rw [exceptPure_eq, Except.ok.injEq] at h
        rw [hmsg] at htr
        rw [← h, htr]
        rfl
      | null => rw [hmsg] at htr; cases htr
      | bool b => rw [hmsg] at h; cases h
      | num q => rw [hmsg] at h; cases h
      | str s => rw [hmsg] at h; cases h
      | arr xs => rw [hmsg] at h; cases h
    · rw [if_neg htr] at h
      rw [exceptPure_eq, Except.ok.injEq] at h
      rw [← h, Bool.eq_false_iff.mpr htr]
      rfl
  | null => cases h
  | bool b => cases h
  | num q => cases h
  | str s => cases h
  | arr xs => cases h

/-- The direct tree count equals the length of the extracted sequence. -/
theorem countNodesStats_extract (fs : List (String × JVal)) (raw : List MessageRecord)
    (h : extractMessages fs = .ok raw) :
    countNodesStats fs = .ok raw.length := by
  induction fs generalizing raw with
  | nil =>
    simp only [extractMessages, Except.ok.injEq] at h
    subst h
    rfl
  | cons kv rest ih =>
    simp only [extractMessages] at h
    obtain ⟨r, hr, h⟩ := exceptBind_ok h
    obtain ⟨rs, hrs, h⟩ := exceptBind_ok h
    obtain ⟨nfs, hnode, hiff⟩ := nodeRecord_some_iff kv.2 r hr
    simp only [countNodesStats, hnode, jGet, exceptBind_ok_eq, ih rs hrs,
      exceptPure_eq]
    cases r with
    | some m =>
      have hval := Except.ok.inj h
      subst hval
      simp only [Option.isSome] at hiff
      rw [← hiff]
      simp [Nat.add_comm]
    | none =>
      have hval := Except.ok.inj h
      subst hval
      simp only [Option.isSome] at hiff
      rw [← hiff]
      simp

/-- Claim C3: when the linearizer succeeds on a conversation's mapping,
its output length equals the direct tree count used by `get_stats`, and
that count is the same computation as the `messageCount` of
`get_conversations_by_date`; the two counting code paths never
diverge. -/
theorem c3_count_equivalence (fs : List (String × JVal)) (msgs : List MessageRecord)
    (hlin : linearizeMessages (.obj fs) = .ok msgs) :
    mappingCountStats (.obj fs) = .ok msgs.length ∧
    mappingCountListing (.obj fs) = .ok msgs.length := by
  simp only [linearizeMessages] at hlin
  obtain ⟨raw, hraw, hlin⟩ := exceptBind_ok hlin
  rw [exceptPure_eq, Except.ok.injEq] at hlin
  subst hlin
  have hcount := countNodesStats_extract fs raw hraw
  have hlen : (stableSort msgLt raw).length = raw.length := stableSort_length msgLt raw
  constructor
  · simp only [mappingCountStats, hcount, hlen]
  · simp only [mappingCountListing, ← countNodes_agree, hcount, hlen]

/-- Witness for `c3_count_equivalence` at a concrete mapping. -/
theorem c3_witness :
    mappingCountStats (.obj c1wfs) = .ok c1wmsgs.length ∧
    mappingCountListing (.obj c1wfs) = .ok c1wmsgs.length :=
  c3_count_equivalence c1wfs c1wmsgs (by rfl)

/-! ## Claim C4: records without `create_time` are skipped -/

/-- A record whose `create_time` is `None` (absent or null) leaves the
state untouched. -/
theorem ingestRecord_skip (st : Store) (rfs : List (String × JVal))
    (habs : pyGetN rfs "create_time" = .null) :
    ingestRecord st (.obj rfs) = .ok st := by
  simp [ingestRecord, habs]

theorem loadRecords_skip (pre suf : List JVal) (rfs : List (String × JVal))
    (habs : pyGetN rfs "create_time" = .null) :
    ∀ st : Store, loadRecords st (pre ++ .obj rfs :: suf) = loadRecords st (pre ++ suf) := by
  induction pre with
  | nil =>
    intro st
    simp only [List.nil_append, loadRecords, ingestRecord_skip st rfs habs,
      exceptBind_ok_eq]
  | cons p ps ih =>
    intro st
    simp only [List.cons_append, loadRecords]
    cases hing : ingestRecord st p with
    | ok st2 => simp [hing, exceptBind_ok_eq, ih st2]
    | error e => simp [hing, exceptBind_err_eq]

/-- Claim C4: a record with no (or a null) `create_time` is silently
skipped by ingest: the resulting store — total conversation count,
`by_id` and every `by_date` bucket — is identical to the store produced
without that record, and no error is surfaced for it. -/
theorem c4_skip_absent_create_time (pre suf : List JVal) (rfs : List (String × JVal))
    (habs : pyGetN rfs "create_time" = .null) :
    loadData (pre ++ .obj rfs :: suf) = loadData (pre ++ suf) :=
  loadRecords_skip pre suf rfs habs emptyStore

/-- Witness for `c4_skip_absent_create_time`: a titled record without
`create_time` between two dated records. -/
theorem c4_witness :
    loadData [JVal.obj [("create_time", .num 1), ("id", .str "a")],
              JVal.obj [("title", .str "no date")],
              JVal.obj [("create_time", .num 2), ("id", .str "b")]] =
    loadData [JVal.obj [("create_time", .num 1), ("id", .str "a")],
              JVal.obj [("create_time", .num 2), ("id", .str "b")]] :=
  c4_skip_absent_create_time
    [JVal.obj [("create_time", .num 1), ("id", .str "a")]]
    [JVal.obj [("create_time", .num 2), ("id", .str "b")]]
    [("title", .str "no date")] (by rfl)

/-! ## Claim C8: uniqueness of `id` across the store -/

/-- Two records sharing the id `"a"`. -/
def c8r1 : JVal := .obj [("create_time", .num 1), ("id", .str "a")]

/-- Second record with the same id. -/
def c8r2 : JVal := .obj [("create_time", .num 2), ("id", .str "a")]

/-- Claim C8 (counterexample).  Ingesting two records with the same id
leaves one `by_id` entry but two stored conversations, and
`get_stats` reports 2 total conversations, so `by_id` does not hold one
entry per ingested conversation and its size differs from the total
count. -/
theorem c8_counterexample :
    ((loadData [c8r1, c8r2]).map
      (fun st => (st.by_id.length, st.conversations.length))) = .ok (1, 2) ∧
    ((loadData [c8r1, c8r2] >>= getStats).map
      (fun r => r.totalConversations)) = .ok 2 := by
  exact ⟨by rfl, by rfl⟩

theorem idAssign_length_mem (bi : List (JVal × Conversation)) (k : JVal)
    (c : Conversation) (h : ∃ e ∈ bi, JVal.beq e.1 k = true) :
    (idAssign bi k c).length = bi.length := by
  induction bi with
  | nil => rcases h with ⟨e, he, _⟩; cases he
  | cons e rest ih =>
    rcases h with ⟨e2, he2, hbeq⟩
    rcases List.mem_cons.mp he2 with rfl | hmem
    · simp [idAssign, hbeq]
    · by_cases hk : JVal.beq e.1 k = true
      · simp [idAssign, hk]
      · simp only [idAssign, Bool.eq_false_iff.mpr hk, Bool.false_eq_true, if_false,
          List.length_cons]
        rw [ih ⟨e2, hmem, hbeq⟩]

theorem idAssign_length_nomem (bi : List (JVal × Conversation)) (k : JVal)
    (c : Conversation) (h : ∀ e ∈ bi, JVal.beq e.1 k = false) :
    (idAssign bi k c).length = bi.length + 1 := by
  induction bi with
  | nil => rfl
  | cons e rest ih =>
    have he := h e (List.mem_cons_self e rest)
    simp only [idAssign, he, List.length_cons]
    simp only [Bool.false_eq_true, if_false, List.length_cons]
    rw [ih (fun e2 h2 => h e2 (List.mem_cons_of_mem e h2))]

theorem idAssign_keys (bi : List (JVal × Conversation)) (k : JVal) (c : Conversation) :
    ∀ k2 ∈ (idAssign bi k c).map Prod.fst, k2 ∈ bi.map Prod.fst ∨ k2 = k := by
  induction bi with
  | nil =>
    intro k2 hk2
    simp only [idAssign, List.map_cons, List.map_nil, List.mem_singleton] at hk2
    exact Or.inr hk2
  | cons e rest ih =>
    intro k2 hk2
    by_cases hk : JVal.beq e.1 k = true
    · simp only [idAssign, hk, if_true, List.map_cons, List.mem_cons] at hk2
      rcases hk2 with rfl | hk2
      · exact Or.inl (by simp)
      · exact Or.inl (by simp [hk2])
    · simp only [idAssign, Bool.eq_false_iff.mpr hk, Bool.false_eq_true, if_false,
        List.map_cons, List.mem_cons] at hk2
      rcases hk2 with rfl | hk2
      · exact Or.inl (by simp)
      · rcases ih k2 hk2 with h2 | h2
        · exact Or.inl (by simp [h2])
        · exact Or.inr h2

/-- The ingest step either skips the record or appends exactly one
conversation. -/
theorem ingestRecord_cases (st : Store) (r : JVal) (st1 : Store)
    (h : ingestRecord st r = .ok st1) :
    st1 = st ∨ ∃ c : Conversation,
      st1.conversations = st.conversations ++ [c] ∧
      st1.by_id = idAssign st.by_id c.id c ∧
      st1.by_date = bucketAppend st.by_date (epochDayKey c.create_time) c := by
  cases r with
  | obj fs =>
    simp only [ingestRecord] at h
    cases hct : pyGetN fs "create_time" with
    | null => rw [hct] at h; exact Or.inl (Except.ok.inj h).symm
    | num q =>
      rw [hct] at h
      simp only [ctValue] at h
      by_cases hrange : (civilOfEpoch q).1 < 1 ∨ 9999 < (civilOfEpoch q).1
      · rw [if_pos hrange] at h; cases h
      · rw [if_neg hrange] at h
        refine Or.inr ⟨recordConv fs (.num q) q, ?_⟩
        have := (Except.ok.inj h).symm
        subst this
        exact ⟨rfl, rfl, rfl⟩
    | bool b =>
      rw [hct] at h
      simp only [ctValue] at h
      by_cases hrange : (civilOfEpoch (if b then (1 : ℚ) else 0)).1 < 1 ∨
          9999 < (civilOfEpoch (if b then (1 : ℚ) else 0)).1
      · rw [if_pos hrange] at h; cases h
      · rw [if_neg hrange] at h
        refine Or.inr ⟨recordConv fs (.bool b) (if b then 1 else 0), ?_⟩
        have := (Except.ok.inj h).symm
        subst this
        exact ⟨rfl, rfl, rfl⟩
    | str s => rw [hct] at h; simp only [ctValue] at h; cases h
    | arr xs => rw [hct] at h; simp only [ctValue] at h; cases h
    | obj fs2 => rw [hct] at h; simp only [ctValue] at h; cases h
  | null => cases h
  | bool b => cases h
  | num q => cases h
  | str s => cases h
  | arr xs => cases h

/-- Ingest only appends to the conversation list. -/
theorem loadRecords_conv_mono (recs : List JVal) :
    ∀ st0 st : Store, loadRecords st0 recs = .ok st →
    ∃ tail, st.conversations = st0.conversations ++ tail := by
  induction recs with
  | nil =>
    intro st0 st h
    simp only [loadRecords] at h
    have h2 := Except.ok.inj h
    subst h2
    exact ⟨[], by simp⟩
  | cons r rs ih =>
    intro st0 st h
    simp only [loadRecords] at h
    obtain ⟨st1, h1, h2⟩ := exceptBind_ok h
    rcases ingestRecord_cases st0 r st1 h1 with heq | ⟨c, hc, _, _⟩
    · subst heq
      exact ih st1 st h2
    · obtain ⟨tail, ht⟩ := ih st1 st h2
      exact ⟨[c] ++ tail, by rw [ht, hc, List.append_assoc]⟩

/-- When the final conversation ids are pairwise distinct, `by_id` stays
in bijection with the conversation list along the ingest fold. -/
theorem loadRecords_byid_len (recs : List JVal) :
    ∀ st0 st : Store, loadRecords st0 recs = .ok st →
    (st.conversations.map (fun c => c.id)).Pairwise (fun a b => JVal.beq a b = false) →
    (∀ k ∈ st0.by_id.map Prod.fst, k ∈ st0.conversations.map (fun c => c.id)) →
    st0.by_id.length = st0.conversations.length →
    st.by_id.length = st.conversations.length := by
  induction recs with
  | nil =>
    intro st0 st h _ _ hlen
    simp only [loadRecords] at h
    have h2 := Except.ok.inj h
    subst h2
    exact hlen
  | cons r rs ih =>
    intro st0 st h hpair hkeys hlen
    simp only [loadRecords] at h
    obtain ⟨st1, h1, h2⟩ := exceptBind_ok h
    rcases ingestRecord_cases st0 r st1 h1 with heq | ⟨c, hc, hbi, _⟩
    · subst heq
      exact ih st1 st h2 hpair hkeys hlen
    · obtain ⟨tail, htail⟩ := loadRecords_conv_mono rs st1 st h2
      have hconv : st.conversations = st0.conversations ++ ([c] ++ tail) := by
        rw [htail, hc, List.append_assoc]
      have hdist : ∀ k ∈ st0.conversations.map (fun c => c.id),
          JVal.beq k c.id = false := by
        intro k hk
        rw [hconv] at hpair
        simp only [List.map_append] at hpair
        exact (List.pairwise_append.mp hpair).2.2 k hk c.id (by simp)
      refine ih st1 st h2 hpair ?_ ?_
      · intro k hk
        rw [hbi] at hk
        rcases idAssign_keys st0.by_id c.id c k hk with h3 | h3
        · have h4 := hkeys k h3
          rw [hc]
          simp only [List.map_append, List.mem_append]
          exact Or.inl h4
        · rw [hc]
          simp [h3]
      · rw [hbi, hc]
        rw [idAssign_length_nomem st0.by_id c.id c ?_]
        · simp [hlen]
        · intro e he
          exact hdist e.1 (hkeys e.1 (List.mem_map_of_mem Prod.fst he))

/-- The reported total conversation count is the stored list length. -/
theorem getStats_total (st : Store) (resp : StatsResponse)
    (h : getStats st = .ok resp) :
    resp.totalConversations = st.conversations.length := by
  by_cases he : st.conversations.isEmpty = true
  · simp only [getStats, he, if_true] at h
    have h2 := Except.ok.inj h
    rw [← h2]
    simp [List.isEmpty_iff.mp he]
  · simp only [getStats, he, Bool.false_eq_true, if_false] at h
    obtain ⟨total, htot, h2⟩ := exceptBind_ok h
    have h3 := Except.ok.inj h2
    rw [← h3]

/-- Claim C8 (amended): when the ingested conversations carry pairwise
distinct ids — the shape the spec assumes of an export — `by_id` holds
one entry per ingested conversation and its size equals the total
conversation count reported by `get_stats`.  Without that assumption
the dict assignment `by_id[c.id] = c` collapses duplicate ids (see
`c8_counterexample`). -/
theorem c8_amended_unique_ids (recs : List JVal) (st : Store) (resp : StatsResponse)
    (h : loadData recs = .ok st)
    (hpair : (st.conversations.map (fun c => c.id)).Pairwise
      (fun a b => JVal.beq a b = false))
    (hstats : getStats st = .ok resp) :
    st.by_id.length = st.conversations.length ∧
    resp.totalConversations = st.by_id.length := by
  have hlen := loadRecords_byid_len recs emptyStore st h hpair
    (by simp [emptyStore]) rfl
  exact ⟨hlen, by rw [getStats_total st resp hstats, hlen]⟩

/-- A second record with the distinct id `"b"`. -/
def c8wr2 : JVal := .obj [("create_time", .num 2), ("id", .str "b")]

/-- The conversation ingested from `c8r1`. -/
def c8cA : Conversation := ⟨.str "a", .str "", 1, .num 1, .null, .obj [], .bool false⟩

/-- The conversation ingested from `c8wr2`. -/
def c8cB : Conversation := ⟨.str "b", .str "", 2, .num 2, .null, .obj [], .bool false⟩

/-- The store after ingesting `[c8r1, c8wr2]`. -/
def c8wst : Store :=
  ⟨[c8cA, c8cB], [("1970-01-01", [c8cA, c8cB])],
   [(.str "a", c8cA), (.str "b", c8cB)]⟩

/-- The stats response for `c8wst`. -/
def c8wresp : StatsResponse := ⟨2, 0, "1970-01-01", "1970-01-01", []⟩

/-- Witness for `c8_amended_unique_ids` at a concrete two-record corpus. -/
theorem c8_witness :
    c8wst.by_id.length = c8wst.conversations.length ∧
    c8wresp.totalConversations = c8wst.by_id.length :=
  c8_amended_unique_ids [c8r1, c8wr2] c8wst c8wresp (by rfl) (by decide) (by rfl)

/-! ## Claim C10: listing for arbitrary date strings -/

/-- Claim C10: for any string — well-formed date or not — when no
bucket key equals it exactly, `get_conversations_by_date` returns a
well-formed response echoing the string with an empty conversation
list and raises nothing (the date string is never parsed; the
`defaultdict.get` lookup misses and yields `[]`). -/
theorem c10_unknown_date (st : Store) (s : String)
    (hmiss : ∀ kv ∈ st.by_date, kv.1 ≠ s) :
    getConversationsByDate st s = .ok ⟨s, []⟩ := by
  have hfind : st.by_date.find? (fun kv => kv.1 == s) = none := by
    rw [List.find?_eq_none]
    intro kv hkv
    simp [hmiss kv hkv]
  have hb : bucketGet st.by_date s = [] := by
    simp [bucketGet, hfind]
  rw [getConversationsByDate, hb]
  rfl

/-- Witness for `c10_unknown_date` on a store with one bucket and a
string that is not a well-formed date. -/
theorem c10_witness :
    getConversationsByDate c8wst "not-a-date" = .ok ⟨"not-a-date", []⟩ :=
  c10_unknown_date c8wst "not-a-date" (by decide)

/-! ## Claim C5: by-date listing -/

theorem convLt_asym (a b : Conversation) (h : convLt a b = true) : convLt b a = false := by
  simp only [convLt, decide_eq_true_eq] at h
  simp only [convLt, decide_eq_false_iff_not]
  exact not_lt_of_gt h

theorem convLt_negtrans (a b c : Conversation) (hab : convLt a b = false)
    (hbc : convLt b c = false) : convLt a c = false := by
  simp only [convLt, decide_eq_false_iff_not, not_lt] at hab hbc ⊢
  exact le_trans hbc hab

theorem bucketGet_append (bd : List (String × List Conversation)) (k : String)
    (c : Conversation) (s : String) :
    bucketGet (bucketAppend bd k c) s =
      if k == s then bucketGet bd s ++ [c] else bucketGet bd s := by
  induction bd with
  | nil =>
    by_cases h : k = s
    · subst h
      simp [bucketAppend, bucketGet]
    · simp [bucketAppend, bucketGet, h, Ne.symm h]
  | cons kv rest ih =>
    obtain ⟨k2, cs⟩ := kv
    by_cases h2 : k2 = k
    · subst h2
      by_cases h3 : k2 = s
      · subst h3
        simp [bucketAppend, bucketGet]
      · simp [bucketAppend, bucketGet, h3]
    · have hkk : ¬ k = k2 := fun hh => h2 hh.symm
      by_cases h3 : k2 = s
      · subst h3
        simp [bucketAppend, bucketGet, h2, hkk]
      · simp only [beq_iff_eq] at ih
        have hb2 : (k2 == k) = false := by simp [h2]
        have hb3 : (k2 == s) = false := by simp [h3]
        simp only [bucketAppend, bucketGet, List.find?_cons, hb2, hb3,
          if_false, Bool.false_eq_true]
        simpa [bucketGet] using ih

/-- Along ingest, every `by_date` bucket is exactly the insertion-order
filter of the stored conversations by day key. -/
theorem loadRecords_bucket (recs : List JVal) :
    ∀ st0 st : Store, loadRecords st0 recs = .ok st →
    (∀ s, bucketGet st0.by_date s =
      st0.conversations.filter (fun c => epochDayKey c.create_time == s)) →
    ∀ s, bucketGet st.by_date s =
      st.conversations.filter (fun c => epochDayKey c.create_time == s) := by
  induction recs with
  | nil =>
    intro st0 st h hinv
    simp only [loadRecords] at h
    have h2 := Except.ok.inj h
    subst h2
    exact hinv
  | cons r rs ih =>
    intro st0 st h hinv
    simp only [loadRecords] at h
    obtain ⟨st1, h1, h2⟩ := exceptBind_ok h
    rcases ingestRecord_cases st0 r st1 h1 with heq | ⟨c, hc, _, hbd⟩
    · subst heq
      exact ih st1 st h2 hinv
    · refine ih st1 st h2 ?_
      intro s
      rw [hbd, bucketGet_append, hc, List.filter_append, hinv s]
      by_cases hk : epochDayKey c.create_time = s
      · simp [hk]
      · simp [hk]

/-- Claim C5: for every day string, the listing echoes the date; when no
conversation falls on that UTC day it is the empty response and no
error; and any successful response lists, in descending `createTime`
order, exactly the conversations whose `createTime` falls on that UTC
calendar day. -/
theorem c5_by_date_listing (recs : List JVal) (st : Store)
    (h : loadData recs = .ok st) (s : String) :
    ((st.conversations.filter (fun c => epochDayKey c.create_time == s)) = [] →
      getConversationsByDate st s = .ok ⟨s, []⟩) ∧
    (∀ resp, getConversationsByDate st s = .ok resp →
      resp.date = s ∧
      ∃ cs : List Conversation,
        listEntries cs = .ok resp.conversations ∧
        cs.Pairwise (fun a b => b.create_time ≤ a.create_time) ∧
        cs.Perm (st.conversations.filter (fun c => epochDayKey c.create_time == s))) := by
  have hbucket := loadRecords_bucket recs emptyStore st h
    (by intro s2; simp [emptyStore, bucketGet]) s
  constructor
  · intro hempty
    rw [getConversationsByDate, hbucket, hempty]
    rfl
  · intro resp hresp
    rw [getConversationsByDate] at hresp
    obtain ⟨entries, hent, hpure⟩ := exceptBind_ok hresp
    have hr := Except.ok.inj hpure
    refine ⟨by rw [← hr], stableSort convLt (bucketGet st.by_date s), ?_, ?_, ?_⟩
    · rw [hent, ← hr]
    · have hp := stableSort_pairwise convLt convLt_asym convLt_negtrans
        (bucketGet st.by_date s)
      exact hp.imp (fun {a b} hab => by
        simp only [convLt, decide_eq_false_iff_not, not_lt, neg_le_neg_iff] at hab
        exact hab)
    · rw [← hbucket]
      exact stableSort_perm convLt (bucketGet st.by_date s)

/-- Witness for `c5_by_date_listing` at a concrete two-conversation
store and its day key. -/
theorem c5_witness :
    ((c8wst.conversations.filter
        (fun c => epochDayKey c.create_time == "1970-01-01")) = [] →
      getConversationsByDate c8wst "1970-01-01" = .ok ⟨"1970-01-01", []⟩) ∧
    (∀ resp, getConversationsByDate c8wst "1970-01-01" = .ok resp →
      resp.date = "1970-01-01" ∧
      ∃ cs : List Conversation,
        listEntries cs = .ok resp.conversations ∧
        cs.Pairwise (fun a b => b.create_time ≤ a.create_time) ∧
        cs.Perm (c8wst.conversations.filter
          (fun c => epochDayKey c.create_time == "1970-01-01"))) :=
  c5_by_date_listing [c8r1, c8wr2] c8wst (by rfl) "1970-01-01"

/-! ## Claim C7: `topModels` -/

theorem tmLt_asym (a b : JVal × ℕ) (h : tmLt a b = true) : tmLt b a = false := by
  simp only [tmLt, decide_eq_true_eq] at h
  simp only [tmLt, decide_eq_false_iff_not]
  exact not_lt_of_gt h

theorem tmLt_negtrans (a b c : JVal × ℕ) (hab : tmLt a b = false)
    (hbc : tmLt b c = false) : tmLt a c = false := by
  simp only [tmLt, decide_eq_false_iff_not, not_lt] at hab hbc ⊢
  exact le_trans hbc hab

/-- First-occurrence deduplication relative to already-seen keys: the
insertion order of `defaultdict` keys. -/
def dedupFirstFrom (seen : List JVal) : List JVal → List JVal
  | [] => seen
  | m :: ms =>
    if seen.any (fun y => JVal.beq y m) then dedupFirstFrom seen ms
    else dedupFirstFrom (seen ++ [m]) ms

theorem tallyModel_keys (mc : List (JVal × ℕ)) (m : JVal) :
    (tallyModel mc m).map Prod.fst =
      if mc.any (fun kv => JVal.beq kv.1 m) then mc.map Prod.fst
      else mc.map Prod.fst ++ [m] := by
  induction mc with
  | nil => rfl
  | cons kv rest ih =>
    by_cases hk : JVal.beq kv.1 m = true
    · simp [tallyModel, hk, List.any_cons]
    · simp only [tallyModel, Bool.eq_false_iff.mpr hk, Bool.false_eq_true, if_false,
        List.any_cons, Bool.false_or, List.map_cons, ih]
      by_cases h2 : rest.any (fun kv => JVal.beq kv.1 m) = true
      · simp [h2]
      · simp [Bool.eq_false_iff.mpr h2]

theorem tallyModel_mem (mc : List (JVal × ℕ)) (m : JVal) :
    ∀ kv ∈ tallyModel mc m, kv.1 ∈ mc.map Prod.fst ∨ kv.1 = m := by
  induction mc with
  | nil =>
    intro kv hkv
    simp only [tallyModel, List.mem_singleton] at hkv
    subst hkv
    exact Or.inr rfl
  | cons e rest ih =>
    intro kv hkv
    by_cases hk : JVal.beq e.1 m = true
    · simp only [tallyModel, hk, if_true, List.mem_cons] at hkv
      rcases hkv with rfl | hkv
      · exact Or.inl (by simp)
      · exact Or.inl (by simp [List.mem_map_of_mem Prod.fst hkv])
    · simp only [tallyModel, Bool.eq_false_iff.mpr hk, Bool.false_eq_true, if_false,
        List.mem_cons] at hkv
      rcases hkv with rfl | hkv
      · exact Or.inl (by simp)
      · rcases ih kv hkv with h2 | h2
        · exact Or.inl (by simp [List.mem_cons]; exact Or.inr (by simpa using h2))
        · exact Or.inr h2

theorem modelCounts_truthy (cs : List Conversation) :
    ∀ mc, (∀ kv ∈ mc, (kv.1 : JVal).truthy = true) →
      ∀ kv ∈ modelCounts cs mc, kv.1.truthy = true := by
  induction cs with
  | nil =>
    intro mc hmc kv hkv
    exact hmc kv hkv
  | cons c rest ih =>
    intro mc hmc kv hkv
    by_cases hm : c.model.truthy = true
    · simp only [modelCounts, hm, if_true] at hkv
      refine ih (tallyModel mc c.model) ?_ kv hkv
      intro kv2 hkv2
      rcases tallyModel_mem mc c.model kv2 hkv2 with h2 | h2
      · rcases List.mem_map.mp h2 with ⟨e, he, hfst⟩
        rw [← hfst]
        exact hmc e he
      · rw [h2]
        exact hm
    · simp only [modelCounts, Bool.eq_false_iff.mpr hm, Bool.false_eq_true,
        if_false] at hkv
      exact ih mc hmc kv hkv

theorem modelCounts_keys (cs : List Conversation) :
    ∀ mc, (modelCounts cs mc).map Prod.fst =
      dedupFirstFrom (mc.map Prod.fst)
        ((cs.filter (fun c => c.model.truthy)).map (fun c => c.model)) := by
  induction cs with
  | nil => intro mc; rfl
  | cons c rest ih =>
    intro mc
    by_cases hm : c.model.truthy = true
    · have hany : (mc.map Prod.fst).any (fun y => JVal.beq y c.model) =
          mc.any (fun kv => JVal.beq kv.1 c.model) := by
        induction mc with
        | nil => rfl
        | cons e r ihl => simp only [List.map_cons, List.any_cons, ihl]
      rw [show List.filter (fun c => c.model.truthy) (c :: rest) =
        c :: List.filter (fun c => c.model.truthy) rest from by simp [hm]]
      simp only [List.map_cons, dedupFirstFrom, hany]
      simp only [modelCounts, hm, if_true]
      by_cases h2 : mc.any (fun kv => JVal.beq kv.1 c.model) = true
      · rw [if_pos h2, ih (tallyModel mc c.model), tallyModel_keys, if_pos h2]
      · rw [if_neg h2, ih (tallyModel mc c.model), tallyModel_keys, if_neg h2]
    · simp only [modelCounts, Bool.eq_false_iff.mpr hm, Bool.false_eq_true, if_false]
      rw [show List.filter (fun c => c.model.truthy) (c :: rest) =
        List.filter (fun c => c.model.truthy) rest from by
          simp [Bool.eq_false_iff.mpr hm]]
      exact ih mc

/-- Claim C7: `topModels` has at most 10 entries, all with truthy
(non-empty) model values, in non-increasing count order; entries of any
fixed count form a prefix of the tally entries of that count in
encounter order, and the tally keys are exactly the distinct truthy
models in order of first occurrence in the corpus. -/
theorem c7_top_models (st : Store) (resp : StatsResponse)
    (h : getStats st = .ok resp) :
    resp.topModels.length ≤ 10 ∧
    (∀ e ∈ resp.topModels, e.model.truthy = true) ∧
    resp.topModels.Pairwise (fun a b => b.count ≤ a.count) ∧
    (∀ k : ℕ, ∃ t, (modelCounts st.conversations []).filter (fun kv => kv.2 == k) =
      (resp.topModels.filter (fun e => e.count == k)).map
        (fun e => (e.model, e.count)) ++ t) ∧
    (modelCounts st.conversations []).map Prod.fst =
      dedupFirstFrom []
        ((st.conversations.filter (fun c => c.model.truthy)).map
          (fun c => c.model)) := by
  have hkeys := modelCounts_keys st.conversations []
  have htm : resp.topModels = topModelsOf (modelCounts st.conversations []) ∨
      (resp.topModels = [] ∧ st.conversations = []) := by
    by_cases he : st.conversations.isEmpty = true
    · simp only [getStats, he, if_true] at h
      have h2 := Except.ok.inj h
      exact Or.inr ⟨by rw [← h2], List.isEmpty_iff.mp he⟩
    · simp only [getStats, he, Bool.false_eq_true, if_false] at h
      obtain ⟨total, _, h2⟩ := exceptBind_ok h
      have h3 := Except.ok.inj h2
      exact Or.inl (by rw [← h3])
  rcases htm with htm | ⟨htm, hconv⟩
  · set mc := modelCounts st.conversations [] with hmc
    refine ⟨?_, ?_, ?_, ?_, hkeys⟩
    · rw [htm]
      simp only [topModelsOf, List.length_map]
      exact le_trans (List.length_take_le 10 _) (le_refl 10)
    · intro e he
      rw [htm] at he
      simp only [topModelsOf, List.mem_map] at he
      obtain ⟨kv, hkv, hmk⟩ := he
      have hkv2 : kv ∈ mc :=
        (stableSort_perm tmLt mc).mem_iff.mp (List.mem_of_mem_take hkv)
      have := modelCounts_truthy st.conversations [] (by intro kv2 h2; cases h2) kv hkv2
      rw [← hmk]
      exact this
    · rw [htm]
      simp only [topModelsOf]
      rw [List.pairwise_map]
      refine List.Pairwise.sublist (List.take_sublist 10 _) ?_
      have hp := stableSort_pairwise tmLt tmLt_asym tmLt_negtrans mc
      exact hp.imp (fun {a b} hab => by
        simp only [tmLt, decide_eq_false_iff_not, not_lt, neg_le_neg_iff] at hab
        exact_mod_cast hab)
    · intro k
      have hstable : (stableSort tmLt mc).filter (fun kv => kv.2 == k) =
          mc.filter (fun kv => kv.2 == k) := by
        refine stableSort_filter tmLt _ ?_ mc
        intro a b ha hb
        simp only [beq_iff_eq] at ha hb
        simp [tmLt, ha, hb]
      have hpre : ((stableSort tmLt mc).take 10).filter (fun kv => kv.2 == k) <+:
          (stableSort tmLt mc).filter (fun kv => kv.2 == k) :=
        (List.take_prefix 10 _).filter _
      obtain ⟨t, ht⟩ := hpre
      refine ⟨t, ?_⟩
      rw [← hstable, ← ht, htm]
      simp only [topModelsOf, List.filter_map]
      congr 1
      rw [List.map_map]
      have : ((fun e : TopModelEntry => (e.model, e.count)) ∘
          (fun kv : JVal × ℕ => TopModelEntry.mk kv.1 kv.2)) = id := by
        funext kv
        rfl
      rw [this, List.map_id]
      congr 1
  · refine ⟨by simp [htm], by simp [htm], by simp [htm], ?_, hkeys⟩
    intro k
    refine ⟨(modelCounts st.conversations []).filter (fun kv => kv.2 == k), ?_⟩
    simp [htm]

/-- Three-conversation store with two distinct models. -/
def c7wst : Store :=
  let cA : Conversation := ⟨.str "a", .str "", 1, .num 1, .str "gpt-4", .obj [], .bool false⟩
  let cB : Conversation := ⟨.str "b", .str "", 2, .num 2, .str "gpt-4", .obj [], .bool false⟩
  let cC : Conversation := ⟨.str "c", .str "", 3, .num 3, .str "o3", .obj [], .bool false⟩
  ⟨[cA, cB, cC], [("1970-01-01", [cA, cB, cC])],
   [(.str "a", cA), (.str "b", cB), (.str "c", cC)]⟩

/-- The stats response for `c7wst`. -/
def c7wresp : StatsResponse :=
  ⟨3, 0, "1970-01-01", "1970-01-01", [⟨.str "gpt-4", 2⟩, ⟨.str "o3", 1⟩]⟩

/-- Witness for `c7_top_models` at a concrete store. -/
theorem c7_witness :
    c7wresp.topModels.length ≤ 10 ∧
    (∀ e ∈ c7wresp.topModels, e.model.truthy = true) ∧
    c7wresp.topModels.Pairwise (fun a b => b.count ≤ a.count) ∧
    (∀ k : ℕ, ∃ t, (modelCounts c7wst.conversations []).filter (fun kv => kv.2 == k) =
      (c7wresp.topModels.filter (fun e => e.count == k)).map
        (fun e => (e.model, e.count)) ++ t) ∧
    (modelCounts c7wst.conversations []).map Prod.fst =
      dedupFirstFrom []
        ((c7wst.conversations.filter (fun c => c.model.truthy)).map
          (fun c => c.model)) :=
  c7_top_models c7wst c7wresp (by rfl)

/-! ## Claim C9: index persistence round-trip -/

theorem serializeDoc_round (d : SearchDoc) :
    deserializeDoc (serializeDoc d) = some d := by
  obtain ⟨i, t, c, ct, m⟩ := d
  cases ct with
  | some s => rfl
  | none => rfl

theorem serializeDocs_round (ds : List SearchDoc) :
    deserializeDocs (ds.map serializeDoc) = some ds := by
  induction ds with
  | nil => rfl
  | cons d rest ih =>
    simp only [List.map_cons, deserializeDocs, serializeDoc_round, ih,
      Option.bind_eq_bind, Option.some_bind]
    rfl

/-- Claim C9: for a corpus whose documents build successfully, the
fitted full-text index survives the persist/restore round-trip exactly,
so the restored index returns the same ranked results as the
freshly-built one for every query and limit. -/
theorem c9_round_trip (st : Store) (docs : List SearchDoc)
    (h : buildDocs st.conversations = .ok docs) :
    deserializeIndex (serializeIndex (fitIndex docs)) = some (fitIndex docs) ∧
    (∀ idx2, deserializeIndex (serializeIndex (fitIndex docs)) = some idx2 →
      ∀ q limit, searchIndex idx2 q limit = searchIndex (fitIndex docs) q limit) := by
  have hround : deserializeIndex (serializeIndex (fitIndex docs)) =
      some (fitIndex docs) := by
    simp [serializeIndex, deserializeIndex, fitIndex, serializeDocs_round]
  refine ⟨hround, ?_⟩
  intro idx2 h2 q limit
  rw [hround] at h2
  rw [Option.some_inj.mp h2]

/-- The documents built from the two-conversation store `c8wst`. -/
def c9wdocs : List SearchDoc :=
  [⟨.str "a", .str "", "", some "1970-01-01T00:00:01+00:00", .str ""⟩,
   ⟨.str "b", .str "", "", some "1970-01-01T00:00:02+00:00", .str ""⟩]

/-- Witness for `c9_round_trip` at a concrete corpus. -/
theorem c9_witness :
    deserializeIndex (serializeIndex (fitIndex c9wdocs)) = some (fitIndex c9wdocs) ∧
    (∀ idx2, deserializeIndex (serializeIndex (fitIndex c9wdocs)) = some idx2 →
      ∀ q limit, searchIndex idx2 q limit = searchIndex (fitIndex c9wdocs) q limit) :=
  c9_round_trip c8wst c9wdocs (by rfl)

/-! ## Claim C6: the contribution heat-map

Supporting development: ordering facts about day-key strings, validity
of the calendar scan, and characterization of the `all_days` fill. -/

theorem charsLt_irrefl : ∀ a : List Char, charsLt a a = false := by
  intro a
  induction a with
  | nil => rfl
  | cons x xs ih => simp [charsLt, lt_irrefl, ih]

theorem charsLt_asym : ∀ a b : List Char, charsLt a b = true → charsLt b a = false := by
  intro a
  induction a with
  | nil =>
    intro b hb
    cases b with
    | nil => cases hb
    | cons y ys => rfl
  | cons x xs ih =>
    intro b hb
    cases b with
    | nil => cases hb
    | cons y ys =>
      simp only [charsLt] at hb ⊢
      by_cases hxy : x < y
      · rw [if_neg (lt_asymm hxy), if_pos hxy]
      · rw [if_neg hxy] at hb
        by_cases hyx : y < x
        · rw [if_pos hyx] at hb
          cases hb
        · rw [if_neg hyx] at hb
          rw [if_neg hyx, if_neg hxy]
          exact ih ys hb

theorem charsLt_trans : ∀ a b c : List Char, charsLt a b = true → charsLt b c = true →
    charsLt a c = true := by
  intro a
  induction a with
  | nil =>
    intro b c hab hbc
    cases b with
    | nil => cases hab
    | cons y ys =>
      cases c with
      | nil => cases hbc
      | cons z zs => rfl
  | cons x xs ih =>
    intro b c hab hbc
    cases b with
    | nil => cases hab
    | cons y ys =>
      cases c with
      | nil => cases hbc
      | cons z zs =>
        simp only [charsLt] at hab hbc ⊢
        by_cases hxy : x < y
        · by_cases hyz : y < z
          · rw [if_pos (lt_trans hxy hyz)]
          · rw [if_neg hyz] at hbc
            by_cases hzy : z < y
            · rw [if_pos hzy] at hbc
              cases hbc
            · have hyzeq : y = z := le_antisymm (le_of_not_lt hzy) (le_of_not_lt hyz)
              rw [if_pos (hyzeq ▸ hxy)]
        · rw [if_neg hxy] at hab
          by_cases hyx : y < x
          · rw [if_pos hyx] at hab
            cases hab
          · rw [if_neg hyx] at hab
            have hxyeq : x = y := le_antisymm (le_of_not_lt hyx) (le_of_not_lt hxy)
            subst hxyeq
            by_cases hxz : x < z
            · rw [if_pos hxz]
            · rw [if_neg hxz] at hbc ⊢
              by_cases hzx : z < x
              · rw [if_pos hzx] at hbc
                cases hbc
              · rw [if_neg hzx] at hbc ⊢
                exact ih ys zs hab hbc

theorem charsLt_tricho : ∀ a b : List Char,
    charsLt a b = true ∨ a = b ∨ charsLt b a = true := by
  intro a
  induction a with
  | nil =>
    intro b
    cases b with
    | nil => exact Or.inr (Or.inl rfl)
    | cons y ys => exact Or.inl rfl
  | cons x xs ih =>
    intro b
    cases b with
    | nil => exact Or.inr (Or.inr rfl)
    | cons y ys =>
      rcases lt_trichotomy x y with hxy | hxy | hxy
      · exact Or.inl (by simp [charsLt, hxy])
      · subst hxy
        rcases ih ys with h | h | h
        · exact Or.inl (by simp [charsLt, lt_irrefl, h])
        · exact Or.inr (Or.inl (by rw [h]))
        · exact Or.inr (Or.inr (by simp [charsLt, lt_irrefl, h]))
      · exact Or.inr (Or.inr (by simp [charsLt, hxy]))

theorem charsLt_negtrans (a b c : List Char) (hab : charsLt a b = false)
    (hbc : charsLt b c = false) : charsLt a c = false := by
  cases hac : charsLt a c with
  | false => rfl
  | true =>
    exfalso
    rcases charsLt_tricho a b with h | h | h
    · rw [h] at hab
      cases hab
    · subst h
      rw [hac] at hbc
      cases hbc
    · have := charsLt_trans b a c h hac
      rw [this] at hbc
      cases hbc

theorem dayLt_asym (a b : DayEntry) (h : dayLt a b = true) : dayLt b a = false :=
  charsLt_asym _ _ h

theorem dayLt_negtrans (a b c : DayEntry) (hab : dayLt a b = false)
    (hbc : dayLt b c = false) : dayLt a c = false :=
  charsLt_negtrans _ _ _ hab hbc

theorem charsLt_append_same (p : List Char) (a b : List Char) :
    charsLt (p ++ a) (p ++ b) = charsLt a b := by
  induction p with
  | nil => rfl
  | cons x xs ih => simp [charsLt, lt_irrefl, ih]

theorem digitChar_lt (x y : ℕ) (hx : x < 10) (hy : y < 10) :
    (digitChar x < digitChar y) ↔ x < y := by
  have h : ∀ x2 < 10, ∀ y2 < 10, ((digitChar x2 < digitChar y2) ↔ x2 < y2) := by decide
  exact h x hx y hy

theorem pad2_lt_iff (m n : ℕ) (hm : m < 100) (hn : n < 100) (r1 r2 : List Char) :
    charsLt (pad2 m ++ r1) (pad2 n ++ r2) =
      if m < n then true else if n < m then false else charsLt r1 r2 := by
  have h1 : m / 10 < 10 := by omega
  have h2 : n / 10 < 10 := by omega
  have h3 : m % 10 < 10 := by omega
  have h4 : n % 10 < 10 := by omega
  simp only [pad2, List.cons_append, List.nil_append, charsLt]
  by_cases ha : m / 10 < n / 10
  · rw [if_pos ((digitChar_lt _ _ h1 h2).mpr ha)]
    rw [if_pos (by omega)]
  · rw [if_neg (fun hc => ha ((digitChar_lt _ _ h1 h2).mp hc))]
    by_cases hb : n / 10 < m / 10
    · rw [if_pos ((digitChar_lt _ _ h2 h1).mpr hb)]
      rw [if_neg (by omega), if_pos (by omega)]
    · rw [if_neg (fun hc => hb ((digitChar_lt _ _ h2 h1).mp hc))]
      by_cases hc : m % 10 < n % 10
      · rw [if_pos ((digitChar_lt _ _ h3 h4).mpr hc)]
        rw [if_pos (by omega)]
      · rw [if_neg (fun hd => hc ((digitChar_lt _ _ h3 h4).mp hd))]
        by_cases hd : n % 10 < m % 10
        · rw [if_pos ((digitChar_lt _ _ h4 h3).mpr hd)]
          rw [if_neg (by omega), if_pos (by omega)]
        · rw [if_neg (fun he => hd ((digitChar_lt _ _ h4 h3).mp he))]
          rw [if_neg (by omega), if_neg (by omega)]
          rfl

theorem dateKeyChars_lt (y : ℤ) (m1 d1 m2 d2 : ℕ)
    (hm1 : m1 < 100) (hm2 : m2 < 100) (hd1 : d1 < 100) (hd2 : d2 < 100)
    (hlex : m1 < m2 ∨ (m1 = m2 ∧ d1 < d2)) :
    charsLt (dateKeyChars y m1 d1) (dateKeyChars y m2 d2) = true := by
  have hform : ∀ m d : ℕ, dateKeyChars y m d =
      (pad4 y.toNat ++ "-".data) ++ (pad2 m ++ ("-".data ++ pad2 d)) := by
    intro m d
    simp [dateKeyChars, List.append_assoc]
  rw [hform, hform, charsLt_append_same, pad2_lt_iff m1 m2 hm1 hm2]
  rcases hlex with h | ⟨he, hd⟩
  · rw [if_pos h]
  · subst he
    rw [if_neg (lt_irrefl m1), if_neg (lt_irrefl m1), charsLt_append_same]
    have h2 := pad2_lt_iff d1 d2 hd1 hd2 [] []
    simp only [List.append_nil] at h2
    rw [h2, if_pos hd]

theorem charDigit_digitChar (a : ℕ) (ha : a < 10) : charDigit (digitChar a) = a := by
  have h : ∀ a2 < 10, charDigit (digitChar a2) = a2 := by decide
  exact h a ha

theorem keyYear_dateKey (y : ℤ) (m d : ℕ) (hy : 0 ≤ y) (hy2 : y < 10000) :
    keyYear (dateKey y m d) = y := by
  have h1 : y.toNat / 1000 < 10 := by omega
  have h2 : y.toNat / 100 % 10 < 10 := by omega
  have h3 : y.toNat / 10 % 10 < 10 := by omega
  have h4 : y.toNat % 10 < 10 := by omega
  simp only [dateKey, dateKeyChars, pad4, List.cons_append, keyYear,
    charDigit_digitChar _ h1, charDigit_digitChar _ h2,
    charDigit_digitChar _ h3, charDigit_digitChar _ h4]
  omega

/-- Total days in `fuel` consecutive months starting at month `m`. -/
def sumMonthLen (leap : Bool) : ℕ → ℕ → ℕ
  | _, 0 => 0
  | m, fuel + 1 => monthLen leap m + sumMonthLen leap (m + 1) fuel

/-- Total days in `n` consecutive years starting at year `y`. -/
def sumYearLen : ℤ → ℕ → ℕ
  | _, 0 => 0
  | y, n + 1 => yearLen y + sumYearLen (y + 1) n

theorem isLeap_iff (y : ℤ) :
    isLeap y = true ↔ ((y % 4 = 0 ∧ ¬ y % 100 = 0) ∨ y % 400 = 0) := by
  simp [isLeap, Bool.or_eq_true, Bool.and_eq_true, beq_iff_eq, bne_iff_ne]

/-- Day count of the year as a difference of the closed-form
days-to-year-start function. -/
def yearStart (y : ℤ) : ℤ :=
  365 * y + (y - 1) / 4 - (y - 1) / 100 + (y - 1) / 400

theorem yearLen_step (y : ℤ) : (yearLen y : ℤ) = yearStart (y + 1) - yearStart y := by
  have hval : (yearLen y : ℤ) =
      if (y % 4 = 0 ∧ ¬ y % 100 = 0) ∨ y % 400 = 0 then 366 else 365 := by
    rw [yearLen]
    by_cases hL : isLeap y = true
    · rw [if_pos hL, if_pos ((isLeap_iff y).mp hL)]
      rfl
    · rw [if_neg hL, if_neg (fun hc => hL ((isLeap_iff y).mpr hc))]
      rfl
  rw [hval]
  simp only [yearStart]
  split_ifs with h
  · rcases h with ⟨h4, h100⟩ | h400 <;> omega
  · push_neg at h
    obtain ⟨ha, hb⟩ := h
    by_cases h4 : y % 4 = 0
    · have h100 := ha h4
      omega
    · omega

theorem sumYearLen_eq : ∀ (n : ℕ) (y : ℤ),
    (sumYearLen y n : ℤ) = yearStart (y + n) - yearStart y
  | 0, y => by simp [sumYearLen]
  | n + 1, y => by
    have ih := sumYearLen_eq n (y + 1)
    have harg : y + 1 + (n : ℤ) = y + ((n : ℤ) + 1) := by ring
    rw [harg] at ih
    have hstep := yearLen_step y
    simp only [sumYearLen]
    push_cast at ih ⊢
    linarith [ih, hstep]

theorem sumYearLen_400 (y : ℤ) : sumYearLen y 400 = 146097 := by
  have h1 := sumYearLen_eq 400 y
  push_cast at h1
  have h2 : yearStart (y + 400) - yearStart y = 146097 := by
    simp only [yearStart]
    omega
  omega

theorem scanMonths_valid (leap : Bool) :
    ∀ fuel m rem, rem < sumMonthLen leap m (fuel + 1) →
      m ≤ (scanMonths leap fuel m rem).1 ∧
      (scanMonths leap fuel m rem).1 ≤ m + fuel ∧
      1 ≤ (scanMonths leap fuel m rem).2 ∧
      (scanMonths leap fuel m rem).2 ≤ monthLen leap (scanMonths leap fuel m rem).1 := by
  intro fuel
  induction fuel with
  | zero =>
    intro m rem h
    simp only [sumMonthLen] at h
    refine ⟨le_refl m, ?_, ?_, ?_⟩
    · show m ≤ m + 0
      omega
    · show 1 ≤ rem + 1
      omega
    · show rem + 1 ≤ monthLen leap m
      omega
  | succ fuel ih =>
    intro m rem h
    simp only [scanMonths]
    by_cases hc : rem < monthLen leap m
    · rw [if_pos hc]
      refine ⟨le_refl m, ?_, ?_, ?_⟩
      · show m ≤ m + (fuel + 1)
        omega
      · show 1 ≤ rem + 1
        omega
      · show rem + 1 ≤ monthLen leap m
        omega
    · rw [if_neg hc]
      have h2 : rem - monthLen leap m < sumMonthLen leap (m + 1) (fuel + 1) := by
        simp only [sumMonthLen] at h ⊢
        omega
      have h3 := ih (m + 1) (rem - monthLen leap m) h2
      refine ⟨?_, ?_, h3.2.2.1, h3.2.2.2⟩
      · exact le_trans (by omega) h3.1
      · exact le_trans h3.2.1 (by omega)

theorem sumMonthLen_year (y : ℤ) : sumMonthLen (isLeap y) 1 12 = yearLen y := by
  cases hL : isLeap y with
  | true =>
    simp only [yearLen, hL, if_pos]
    decide
  | false =>
    simp only [yearLen, hL, Bool.false_eq_true, if_false]
    decide

theorem scanYears_valid :
    ∀ fuel (y : ℤ) rem, rem < sumYearLen y fuel →
      1 ≤ (scanYears fuel y rem).2.1 ∧ (scanYears fuel y rem).2.1 ≤ 12 ∧
      1 ≤ (scanYears fuel y rem).2.2 ∧
      (scanYears fuel y rem).2.2 ≤
        monthLen (isLeap (scanYears fuel y rem).1) (scanYears fuel y rem).2.1 := by
  intro fuel
  induction fuel with
  | zero =>
    intro y rem h
    simp only [sumYearLen] at h
    exact absurd h (by omega)
  | succ fuel ih =>
    intro y rem h
    simp only [scanYears]
    by_cases hc : rem < yearLen y
    · rw [if_pos hc]
      have hm := scanMonths_valid (isLeap y) 11 1 rem
        (by rw [show (11 : ℕ) + 1 = 12 from rfl, sumMonthLen_year]; exact hc)
      exact ⟨hm.1, le_trans hm.2.1 (by norm_num), hm.2.2.1, hm.2.2.2⟩
    · rw [if_neg hc]
      apply ih
      simp only [sumYearLen] at h
      omega

/-- The calendar scan always lands on a valid month and day. -/
theorem civilOfDays_valid (z : ℤ) :
    1 ≤ (civilOfDays z).2.1 ∧ (civilOfDays z).2.1 ≤ 12 ∧
    1 ≤ (civilOfDays z).2.2 ∧
    (civilOfDays z).2.2 ≤
      monthLen (isLeap (civilOfDays z).1) (civilOfDays z).2.1 := by
  have hnn : 0 ≤ z % 146097 := Int.emod_nonneg z (by norm_num)
  have hlt : z % 146097 < 146097 := Int.emod_lt_of_pos z (by norm_num)
  have hrem : (z % 146097).toNat < sumYearLen (1970 + 400 * (z / 146097)) 400 := by
    rw [sumYearLen_400]
    omega
  exact scanYears_valid 400 (1970 + 400 * (z / 146097)) (z % 146097).toNat hrem

theorem mem_daysOfYear (y : ℤ) (m d : ℕ) :
    (m, d) ∈ daysOfYear y ↔
      (1 ≤ m ∧ m ≤ 12 ∧ 1 ≤ d ∧ d ≤ monthLen (isLeap y) m) := by
  simp only [daysOfYear, List.mem_flatMap, List.mem_map, List.mem_range'_1]
  constructor
  · rintro ⟨m2, hm2, d2, hd2, heq⟩
    obtain ⟨hm2a, hm2b⟩ := hm2
    obtain ⟨hd2a, hd2b⟩ := hd2
    cases heq
    refine ⟨by omega, by omega, by omega, by omega⟩
  · rintro ⟨h1, h2, h3, h4⟩
    refine ⟨m, ?_, d, ?_, rfl⟩
    · exact ⟨h1, by omega⟩
    · exact ⟨h3, by omega⟩

theorem monthLen_le (leap : Bool) (m : ℕ) : monthLen leap m ≤ 31 := by
  rw [monthLen]
  split_ifs <;> simp

/-- Calendar order on `(month, day)` pairs. -/
def mdLt (a b : ℕ × ℕ) : Prop :=
  a.1 < b.1 ∨ (a.1 = b.1 ∧ a.2 < b.2)

theorem daysOfYear_pairwise (y : ℤ) : (daysOfYear y).Pairwise mdLt := by
  rw [daysOfYear, List.flatMap_def, List.pairwise_flatten]
  constructor
  · intro l' hl'
    rcases List.mem_map.mp hl' with ⟨m, _, rfl⟩
    rw [List.pairwise_map]
    refine List.Pairwise.imp ?_ (List.pairwise_lt_range' 1 (monthLen (isLeap y) m))
    intro a b hab
    exact Or.inr ⟨rfl, hab⟩
  · rw [List.pairwise_map]
    refine List.Pairwise.imp ?_ (List.pairwise_lt_range' 1 12)
    intro m1 m2 h12 x hx y2 hy2
    rcases List.mem_map.mp hx with ⟨d1, _, rfl⟩
    rcases List.mem_map.mp hy2 with ⟨d2, _, rfl⟩
    exact Or.inl h12

set_option maxRecDepth 4000 in
theorem daysOfYear_length (y : ℤ) :
    (daysOfYear y).length = if isLeap y then 366 else 365 := by
  have h : ∀ L : Bool, ((List.range' 1 12).flatMap
      (fun m => (List.range' 1 (monthLen L m)).map (fun d => (m, d)))).length =
      (if L then 366 else 365) := by decide
  rw [daysOfYear]
  cases hL : isLeap y
  · simpa using h false
  · simpa using h true

/-- First-match association lookup in an `all_days`-style dict. -/
def alookup (l : List (String × ℕ)) (k : String) : Option ℕ :=
  (l.find? (fun kv => kv.1 == k)).map (fun kv => kv.2)

theorem alookup_none_of_not_mem (l : List (String × ℕ)) (k : String)
    (h : k ∉ l.map Prod.fst) : alookup l k = none := by
  rw [alookup, List.find?_eq_none.mpr]
  · rfl
  · intro kv hkv
    simp only [beq_iff_eq]
    intro hc
    exact h (hc ▸ List.mem_map_of_mem Prod.fst hkv)

theorem alookup_of_mem_nodup (l : List (String × ℕ)) (k : String) (v : ℕ)
    (hmem : (k, v) ∈ l) (hnd : (l.map Prod.fst).Nodup) : alookup l k = some v := by
  induction l with
  | nil => cases hmem
  | cons kv rest ih =>
    rcases List.mem_cons.mp hmem with rfl | hmem2
    · simp [alookup, List.find?_cons]
    · simp only [List.map_cons, List.nodup_cons] at hnd
      have hne : kv.1 ≠ k := by
        intro hc
        exact hnd.1 (hc ▸ List.mem_map_of_mem Prod.fst hmem2)
      have hb : (kv.1 == k) = false := beq_eq_false_iff_ne.mpr hne
      simp only [alookup, List.find?_cons, hb]
      simpa [alookup] using ih hmem2 hnd.2

theorem updDay_keys (ad : List (String × ℕ)) (k : String) (n : ℕ)
    (h : k ∈ ad.map Prod.fst) : (updDay ad k n).map Prod.fst = ad.map Prod.fst := by
  induction ad with
  | nil => cases h
  | cons kv rest ih =>
    by_cases hk : kv.1 = k
    · simp [updDay, hk]
    · rcases List.mem_cons.mp h with h2 | h2
      · exact absurd h2.symm hk
      · simp only [updDay, beq_iff_eq, if_neg hk, List.map_cons, ih h2]

theorem alookup_updDay_self (ad : List (String × ℕ)) (k : String) (n : ℕ) :
    alookup (updDay ad k n) k = some n := by
  induction ad with
  | nil => simp [updDay, alookup]
  | cons kv rest ih =>
    by_cases hk : kv.1 = k
    · simp [updDay, hk, alookup, List.find?_cons]
    · have hb : (kv.1 == k) = false := beq_eq_false_iff_ne.mpr hk
      simp only [updDay, hb, Bool.false_eq_true, if_false]
      simp only [alookup, List.find?_cons, hb]
      simpa [alookup] using ih

theorem alookup_updDay_other (ad : List (String × ℕ)) (k k2 : String) (n : ℕ)
    (h : k2 ≠ k) : alookup (updDay ad k n) k2 = alookup ad k2 := by
  have hb0 : (k == k2) = false := beq_eq_false_iff_ne.mpr (fun hc => h hc.symm)
  induction ad with
  | nil =>
    simp only [updDay, alookup, List.find?_cons, hb0]
  | cons kv rest ih =>
    by_cases hk : kv.1 = k
    · subst hk
      simp only [updDay, beq_self_eq_true, if_true]
      simp only [alookup, List.find?_cons, hb0]
    · have hb : (kv.1 == k) = false := beq_eq_false_iff_ne.mpr hk
      simp only [updDay, hb, Bool.false_eq_true, if_false]
      simp only [alookup, List.find?_cons] at ih ⊢
      cases hke : (kv.1 == k2)
      · simp only [hke]
        exact ih
      · simp only [hke]

theorem fillDays_keys (year : ℤ) :
    ∀ (bd : List (String × List Conversation)) (ad : List (String × ℕ)),
    (∀ kv ∈ bd, keyYear kv.1 = year → kv.1 ∈ ad.map Prod.fst) →
    (fillDays year ad bd).map Prod.fst = ad.map Prod.fst := by
  intro bd
  induction bd with
  | nil => intro ad _; rfl
  | cons kv rest ih =>
    intro ad hin
    obtain ⟨k, convs⟩ := kv
    by_cases hy : keyYear k = year
    · have hb : (keyYear k == year) = true := by simpa using hy
      have hkad : k ∈ ad.map Prod.fst := hin (k, convs) (List.mem_cons_self _ _) hy
      simp only [fillDays, hb, if_true]
      rw [ih (updDay ad k convs.length) ?_]
      · exact updDay_keys ad k convs.length hkad
      · intro kv2 h2 hy2
        rw [updDay_keys ad k convs.length hkad]
        exact hin kv2 (List.mem_cons_of_mem _ h2) hy2
    · have hb : (keyYear k == year) = false := by simpa using hy
      simp only [fillDays, hb, Bool.false_eq_true, if_false]
      exact ih ad (fun kv2 h2 hy2 => hin kv2 (List.mem_cons_of_mem _ h2) hy2)

theorem fillDays_lookup (year : ℤ) :
    ∀ (bd : List (String × List Conversation)) (ad : List (String × ℕ)) (K : String),
    (bd.map Prod.fst).Nodup →
    (∀ kv ∈ bd, keyYear kv.1 = year → kv.1 ∈ ad.map Prod.fst) →
    alookup (fillDays year ad bd) K =
      (match bd.find? (fun kv => kv.1 == K) with
       | some kv => if keyYear kv.1 = year then some kv.2.length else alookup ad K
       | none => alookup ad K) := by
  intro bd
  induction bd with
  | nil => intro ad K _ _; rfl
  | cons kv rest ih =>
    intro ad K hnd hin
    obtain ⟨k, convs⟩ := kv
    simp only [List.map_cons, List.nodup_cons] at hnd
    by_cases hy : keyYear k = year
    · have hb : (keyYear k == year) = true := by simpa using hy
      have hkad : k ∈ ad.map Prod.fst := hin (k, convs) (List.mem_cons_self _ _) hy
      have hin2 : ∀ kv2 ∈ rest, keyYear kv2.1 = year →
          kv2.1 ∈ (updDay ad k convs.length).map Prod.fst := by
        intro kv2 h2 hy2
        rw [updDay_keys ad k convs.length hkad]
        exact hin kv2 (List.mem_cons_of_mem _ h2) hy2
      simp only [fillDays, hb, if_true]
      rw [ih (updDay ad k convs.length) K hnd.2 hin2]
      by_cases hK : k = K
      · subst hK
        have hrn : rest.find? (fun kv2 => kv2.1 == k) = none := by
          rw [List.find?_eq_none]
          intro kv2 h2
          simp only [beq_iff_eq]
          exact fun hc => hnd.1 (hc ▸ List.mem_map_of_mem Prod.fst h2)
        rw [hrn]
        simp only [List.find?_cons, beq_self_eq_true, if_pos hy, alookup_updDay_self]
      · have hbK : (k == K) = false := beq_eq_false_iff_ne.mpr hK
        simp only [List.find?_cons, hbK]
        cases hf : rest.find? (fun kv2 => kv2.1 == K) with
        | some kv2 =>
          by_cases hy2 : keyYear kv2.1 = year
          · simp [hy2]
          · simp [hy2, alookup_updDay_other ad k K convs.length
              (fun hc => hK hc.symm)]
        | none =>
          simp [alookup_updDay_other ad k K convs.length (fun hc => hK hc.symm)]
    · have hb : (keyYear k == year) = false := by simpa using hy
      simp only [fillDays, hb, Bool.false_eq_true, if_false]
      rw [ih ad K hnd.2 (fun kv2 h2 hy2 => hin kv2 (List.mem_cons_of_mem _ h2) hy2)]
      by_cases hK : k = K
      · subst hK
        have hrn : rest.find? (fun kv2 => kv2.1 == k) = none := by
          rw [List.find?_eq_none]
          intro kv2 h2
          simp only [beq_iff_eq]
          exact fun hc => hnd.1 (hc ▸ List.mem_map_of_mem Prod.fst h2)
        rw [hrn]
        simp only [List.find?_cons, beq_self_eq_true, if_neg hy]
      · have hbK : (k == K) = false := beq_eq_false_iff_ne.mpr hK
        simp only [List.find?_cons, hbK]

theorem assoc_ext : ∀ (l1 l2 : List (String × ℕ)),
    l1.map Prod.fst = l2.map Prod.fst → (l1.map Prod.fst).Nodup →
    (∀ k, alookup l1 k = alookup l2 k) → l1 = l2 := by
  intro l1
  induction l1 with
  | nil =>
    intro l2 hk _ _
    cases l2 with
    | nil => rfl
    | cons b bs => cases hk
  | cons a as ih =>
    intro l2 hk hnd hl
    cases l2 with
    | nil => cases hk
    | cons b bs =>
      simp only [List.map_cons, List.cons.injEq] at hk
      obtain ⟨hab, hkeys⟩ := hk
      simp only [List.map_cons, List.nodup_cons] at hnd
      have hval : a.2 = b.2 := by
        have h1 := hl a.1
        have ha : alookup (a :: as) a.1 = some a.2 := by
          simp [alookup, List.find?_cons]
        have hb2 : alookup (b :: bs) a.1 = some b.2 := by
          have : (b.1 == a.1) = true := by simp [hab]
          simp [alookup, List.find?_cons, this]
        rw [ha, hb2] at h1
        exact Option.some.inj h1
      have htail : as = bs := by
        refine ih bs hkeys hnd.2 ?_
        intro k
        by_cases hk2 : k = a.1
        · subst hk2
          rw [alookup_none_of_not_mem as a.1 hnd.1,
            alookup_none_of_not_mem bs a.1 (hkeys ▸ hnd.1)]
        · have h1 := hl k
          have hbk1 : (a.1 == k) = false := beq_eq_false_iff_ne.mpr
            (fun hc => hk2 hc.symm)
          have hbk2 : (b.1 == k) = false := beq_eq_false_iff_ne.mpr
            (fun hc => hk2 (hab ▸ hc).symm)
          simp only [alookup, List.find?_cons, hbk1, hbk2] at h1
          exact h1
      obtain ⟨a1, a2⟩ := a
      obtain ⟨b1, b2⟩ := b
      simp only at hab hval
      rw [hab, hval, htail]

theorem bucketAppend_keys (bd : List (String × List Conversation)) (k : String)
    (c : Conversation) :
    (bucketAppend bd k c).map Prod.fst =
      if k ∈ bd.map Prod.fst then bd.map Prod.fst else bd.map Prod.fst ++ [k] := by
  induction bd with
  | nil => simp [bucketAppend]
  | cons kv rest ih =>
    by_cases hk : kv.1 = k
    · have hb : (kv.1 == k) = true := by simpa using hk
      simp [bucketAppend, hb, hk]
    · have hb : (kv.1 == k) = false := beq_eq_false_iff_ne.mpr hk
      simp only [bucketAppend, hb, Bool.false_eq_true, if_false, List.map_cons, ih]
      by_cases hmem : k ∈ rest.map Prod.fst
      · rw [if_pos hmem, if_pos (by simp [hmem])]
      · rw [if_neg hmem, if_neg ?_]
        · simp
        · simp only [List.map_cons, List.mem_cons]
          rintro (hc | hc)
          · exact hk hc.symm
          · exact hmem hc

/-- Ingest keeps `by_date` keys unique, and every bucket key is the day
key of some stored conversation. -/
theorem loadRecords_bd_inv (recs : List JVal) :
    ∀ st0 st : Store, loadRecords st0 recs = .ok st →
    (st0.by_date.map Prod.fst).Nodup →
    (∀ kv ∈ st0.by_date, ∃ c ∈ st0.conversations, kv.1 = epochDayKey c.create_time) →
    (st.by_date.map Prod.fst).Nodup ∧
    (∀ kv ∈ st.by_date, ∃ c ∈ st.conversations, kv.1 = epochDayKey c.create_time) := by
  induction recs with
  | nil =>
    intro st0 st h hnd hprov
    simp only [loadRecords] at h
    have h2 := Except.ok.inj h
    subst h2
    exact ⟨hnd, hprov⟩
  | cons r rs ih =>
    intro st0 st h hnd hprov
    simp only [loadRecords] at h
    obtain ⟨st1, h1, h2⟩ := exceptBind_ok h
    rcases ingestRecord_cases st0 r st1 h1 with heq | ⟨c, hc, _, hbd⟩
    · subst heq
      exact ih st1 st h2 hnd hprov
    · refine ih st1 st h2 ?_ ?_
      · rw [hbd, bucketAppend_keys]
        by_cases hmem : epochDayKey c.create_time ∈ st0.by_date.map Prod.fst
        · rw [if_pos hmem]
          exact hnd
        · rw [if_neg hmem]
          rw [List.nodup_append]
          refine ⟨hnd, List.nodup_singleton _, ?_⟩
          intro a ha hb2
          simp only [List.mem_singleton] at hb2
          subst hb2
          exact hmem ha
      · intro kv hkv
        rw [hbd] at hkv
        have hkey : kv.1 ∈ (bucketAppend st0.by_date (epochDayKey c.create_time) c).map
            Prod.fst := List.mem_map_of_mem Prod.fst hkv
        rw [bucketAppend_keys] at hkey
        have hkey2 : kv.1 ∈ st0.by_date.map Prod.fst ∨
            kv.1 = epochDayKey c.create_time := by
          by_cases hmem : epochDayKey c.create_time ∈ st0.by_date.map Prod.fst
          · rw [if_pos hmem] at hkey
            exact Or.inl hkey
          · rw [if_neg hmem] at hkey
            rcases List.mem_append.mp hkey with h3 | h3
            · exact Or.inl h3
            · exact Or.inr (by simpa using h3)
        rcases hkey2 with h3 | h3
        · rcases List.mem_map.mp h3 with ⟨kv2, hkv2, hfst⟩
          obtain ⟨c2, hc2, hd2⟩ := hprov kv2 hkv2
          exact ⟨c2, by rw [hc]; exact List.mem_append_left _ hc2,
            by rw [← hfst]; exact hd2⟩
        · exact ⟨c, by rw [hc]; exact List.mem_append_right _ (by simp), h3⟩

theorem allDays0_keys (year : ℤ) :
    (allDays0 year).map Prod.fst =
      (daysOfYear year).map (fun md => dateKey year md.1 md.2) := by
  rw [allDays0, List.map_map]
  rfl

theorem allDays0_keys_pairwise (year : ℤ) :
    ((daysOfYear year).map (fun md => dateKey year md.1 md.2)).Pairwise
      (fun k1 k2 => charsLt k1.data k2.data = true) := by
  rw [List.pairwise_map]
  refine List.Pairwise.imp_of_mem ?_ (daysOfYear_pairwise year)
  intro a b ha hb hab
  obtain ⟨ha1, ha2, ha3, ha4⟩ := (mem_daysOfYear year a.1 a.2).mp ha
  obtain ⟨hb1, hb2, hb3, hb4⟩ := (mem_daysOfYear year b.1 b.2).mp hb
  have hma := monthLen_le (isLeap year) a.1
  have hmb := monthLen_le (isLeap year) b.1
  exact dateKeyChars_lt year a.1 a.2 b.1 b.2 (by omega) (by omega) (by omega)
    (by omega) hab

theorem allDays0_keys_nodup (year : ℤ) :
    ((daysOfYear year).map (fun md => dateKey year md.1 md.2)).Nodup := by
  refine List.Pairwise.imp ?_ (allDays0_keys_pairwise year)
  intro k1 k2 h12
  intro hc
  subst hc
  rw [charsLt_irrefl] at h12
  cases h12

/-- Claim C6: for representable years, the contribution response has
exactly one entry per calendar day of the year — 366 for a leap year,
365 otherwise — in ascending date order; each entry counts the
conversations whose `createTime` falls on that UTC day (0 when none, so
days outside the year are never included); `max` is the fold-maximum of
the per-day counts and `total` their sum. -/
theorem c6_contribution (recs : List JVal) (st : Store) (year : ℤ)
    (resp : ContributionResponse)
    (h : loadData recs = .ok st)
    (hresp : getContribution st year = resp)
    (hy1 : 1000 ≤ year) (hy2 : year ≤ 9999)
    (hconvs : ∀ c ∈ st.conversations, 1000 ≤ (civilOfEpoch c.create_time).1 ∧
      (civilOfEpoch c.create_time).1 ≤ 9999) :
    resp.year = year ∧
    resp.days.length = (if isLeap year then 366 else 365) ∧
    resp.days = (daysOfYear year).map (fun md =>
      ⟨dateKey year md.1 md.2,
       (st.conversations.filter (fun c =>
         epochDayKey c.create_time == dateKey year md.1 md.2)).length⟩) ∧
    resp.days.Pairwise (fun a b => charsLt a.date.data b.date.data = true) ∧
    resp.maxCount = (resp.days.map (fun e => e.count)).foldl Nat.max 0 ∧
    resp.total = (resp.days.map (fun e => e.count)).sum := by
  obtain ⟨hnd, hprov⟩ := loadRecords_bd_inv recs emptyStore st h
    (by simp [emptyStore]) (by simp [emptyStore])
  have hbucket := loadRecords_bucket recs emptyStore st h
    (by intro s2; simp [emptyStore, bucketGet])
  have hkeyinfo : ∀ kv ∈ st.by_date, ∃ y2 m2 d2, kv.1 = dateKey y2 m2 d2 ∧
      (m2, d2) ∈ daysOfYear y2 ∧ 1000 ≤ y2 ∧ y2 ≤ 9999 := by
    intro kv hkv
    obtain ⟨c, hcmem, hck⟩ := hprov kv hkv
    obtain ⟨hcy1, hcy2⟩ := hconvs c hcmem
    have hv := civilOfDays_valid (epochDays c.create_time)
    refine ⟨(civilOfEpoch c.create_time).1, (civilOfEpoch c.create_time).2.1,
      (civilOfEpoch c.create_time).2.2, ?_, ?_, hcy1, hcy2⟩
    · rw [hck]
      rfl
    · rw [mem_daysOfYear]
      exact ⟨hv.1, hv.2.1, hv.2.2.1, hv.2.2.2⟩
  have hin : ∀ kv ∈ st.by_date, keyYear kv.1 = year →
      kv.1 ∈ (allDays0 year).map Prod.fst := by
    intro kv hkv hyk
    obtain ⟨y2, m2, d2, hkey, hmem, hz1, hz2⟩ := hkeyinfo kv hkv
    have hky2 : keyYear kv.1 = y2 := by
      rw [hkey]
      exact keyYear_dateKey y2 m2 d2 (by omega) (by omega)
    have hyy : y2 = year := by omega
    rw [hyy] at hkey hmem
    rw [allDays0_keys year, hkey]
    exact List.mem_map.mpr ⟨(m2, d2), hmem, rfl⟩
  have hknd : ((daysOfYear year).map (fun md => dateKey year md.1 md.2)).Nodup :=
    allDays0_keys_nodup year
  have hadkeys : (fillDays year (allDays0 year) st.by_date).map Prod.fst =
      (allDays0 year).map Prod.fst :=
    fillDays_keys year st.by_date (allDays0 year) hin
  have hTkeys : ((daysOfYear year).map (fun md => (dateKey year md.1 md.2,
      (bucketGet st.by_date (dateKey year md.1 md.2)).length))).map Prod.fst =
      (daysOfYear year).map (fun md => dateKey year md.1 md.2) := by
    rw [List.map_map]
    rfl
  have hlook : ∀ K, alookup (fillDays year (allDays0 year) st.by_date) K =
      alookup ((daysOfYear year).map (fun md => (dateKey year md.1 md.2,
        (bucketGet st.by_date (dateKey year md.1 md.2)).length))) K := by
    intro K
    rw [fillDays_lookup year st.by_date (allDays0 year) K hnd hin]
    by_cases hKmem : K ∈ (daysOfYear year).map (fun md => dateKey year md.1 md.2)
    · rcases List.mem_map.mp hKmem with ⟨md, hmd, rfl⟩
      have hky : keyYear (dateKey year md.1 md.2) = year :=
        keyYear_dateKey year md.1 md.2 (by omega) (by omega)
      have hTlook : alookup ((daysOfYear year).map (fun md2 =>
          (dateKey year md2.1 md2.2,
           (bucketGet st.by_date (dateKey year md2.1 md2.2)).length)))
          (dateKey year md.1 md.2) =
          some (bucketGet st.by_date (dateKey year md.1 md.2)).length := by
        apply alookup_of_mem_nodup
        · exact List.mem_map.mpr ⟨md, hmd, rfl⟩
        · rw [hTkeys]
          exact hknd
      rw [hTlook]
      cases hf : st.by_date.find? (fun kv => kv.1 == dateKey year md.1 md.2) with
      | some kv =>
        have hkvK : kv.1 = dateKey year md.1 md.2 := by
          simpa using List.find?_some hf
        dsimp only
        rw [if_pos (by rw [hkvK]; exact hky)]
        simp [bucketGet, hf]
      | none =>
        have hb0 : bucketGet st.by_date (dateKey year md.1 md.2) = [] := by
          simp [bucketGet, hf]
        rw [hb0]
        apply alookup_of_mem_nodup
        · rw [allDays0]
          exact List.mem_map.mpr ⟨md, hmd, rfl⟩
        · rw [allDays0_keys year]
          exact hknd
    · have hT0 : alookup ((daysOfYear year).map (fun md => (dateKey year md.1 md.2,
          (bucketGet st.by_date (dateKey year md.1 md.2)).length))) K = none :=
        alookup_none_of_not_mem _ K (by rw [hTkeys]; exact hKmem)
      have hA0 : alookup (allDays0 year) K = none :=
        alookup_none_of_not_mem _ K (by rw [allDays0_keys year]; exact hKmem)
      rw [hT0]
      cases hf : st.by_date.find? (fun kv => kv.1 == K) with
      | some kv =>
        have hkvK : kv.1 = K := by simpa using List.find?_some hf
        by_cases hy3 : keyYear kv.1 = year
        · exfalso
          have hkvmem : kv ∈ st.by_date := List.mem_of_find?_eq_some hf
          have h4 := hin kv hkvmem hy3
          rw [allDays0_keys year, hkvK] at h4
          exact hKmem h4
        · dsimp only
          rw [if_neg hy3]
          exact hA0
      | none => exact hA0
  have hadT : fillDays year (allDays0 year) st.by_date =
      (daysOfYear year).map (fun md => (dateKey year md.1 md.2,
        (bucketGet st.by_date (dateKey year md.1 md.2)).length)) := by
    refine assoc_ext _ _ ?_ ?_ hlook
    · rw [hadkeys, allDays0_keys year, hTkeys]
    · rw [hadkeys, allDays0_keys year]
      exact hknd
  have hTsorted : (((daysOfYear year).map (fun md => (dateKey year md.1 md.2,
      (bucketGet st.by_date (dateKey year md.1 md.2)).length))).map
        (fun kv => (⟨kv.1, kv.2⟩ : DayEntry))).Pairwise
      (fun a b => dayLt b a = false) := by
    rw [List.map_map, List.pairwise_map]
    refine List.Pairwise.imp_of_mem ?_ (daysOfYear_pairwise year)
    intro a b ha hb hab
    obtain ⟨ha1, ha2, ha3, ha4⟩ := (mem_daysOfYear year a.1 a.2).mp ha
    obtain ⟨hb1, hb2, hb3, hb4⟩ := (mem_daysOfYear year b.1 b.2).mp hb
    have hma := monthLen_le (isLeap year) a.1
    have hmb := monthLen_le (isLeap year) b.1
    exact charsLt_asym _ _ (dateKeyChars_lt year a.1 a.2 b.1 b.2 (by omega)
      (by omega) (by omega) (by omega) hab)
  have hdays : resp.days = ((daysOfYear year).map (fun md => (dateKey year md.1 md.2,
      (bucketGet st.by_date (dateKey year md.1 md.2)).length))).map
        (fun kv => (⟨kv.1, kv.2⟩ : DayEntry)) := by
    rw [← hresp]
    show stableSort dayLt ((fillDays year (allDays0 year) st.by_date).map
      (fun kv => (⟨kv.1, kv.2⟩ : DayEntry))) = _
    rw [hadT]
    exact stableSort_of_pairwise dayLt _ hTsorted
  have hdays2 : resp.days = (daysOfYear year).map (fun md =>
      ⟨dateKey year md.1 md.2,
       (st.conversations.filter (fun c =>
         epochDayKey c.create_time == dateKey year md.1 md.2)).length⟩) := by
    rw [hdays, List.map_map]
    refine List.map_congr_left ?_
    intro md _
    simp only [Function.comp]
    rw [hbucket]
  have hne : (daysOfYear year).length ≠ 0 := by
    rw [daysOfYear_length]
    split_ifs <;> omega
  have hadne : (fillDays year (allDays0 year) st.by_date).isEmpty = false := by
    rw [hadT]
    cases hdy : (daysOfYear year).map (fun md => (dateKey year md.1 md.2,
        (bucketGet st.by_date (dateKey year md.1 md.2)).length)) with
    | nil =>
      exfalso
      apply hne
      have := congrArg List.length hdy
      simpa using this
    | cons x xs => rfl
  refine ⟨by rw [← hresp]; rfl, ?_, hdays2, ?_, ?_, ?_⟩
  · rw [hdays2, List.length_map, daysOfYear_length]
  · rw [hdays]
    rw [List.map_map, List.pairwise_map]
    refine List.Pairwise.imp_of_mem ?_ (daysOfYear_pairwise year)
    intro a b ha hb hab
    obtain ⟨ha1, ha2, ha3, ha4⟩ := (mem_daysOfYear year a.1 a.2).mp ha
    obtain ⟨hb1, hb2, hb3, hb4⟩ := (mem_daysOfYear year b.1 b.2).mp hb
    have hma := monthLen_le (isLeap year) a.1
    have hmb := monthLen_le (isLeap year) b.1
    exact dateKeyChars_lt year a.1 a.2 b.1 b.2 (by omega) (by omega) (by omega)
      (by omega) hab
  · conv_lhs => rw [← hresp]
    show (if (fillDays year (allDays0 year) st.by_date).isEmpty then 0
      else ((fillDays year (allDays0 year) st.by_date).map
        (fun kv => kv.2)).foldl Nat.max 0) = _
    rw [hadne, hadT, hdays]
    simp only [Bool.false_eq_true, if_false, List.map_map]
    rfl
  · conv_lhs => rw [← hresp]
    show ((fillDays year (allDays0 year) st.by_date).map (fun kv => kv.2)).sum = _
    rw [hadT, hdays]
    simp only [List.map_map]
    rfl

/-- Witness for C6: the two-conversation store loaded from `[c8r1, c8wr2]`
(both timestamps on 1970-01-01) satisfies the contribution-grid theorem at
year 1970, whose hypotheses hold concretely. -/
theorem c6_witness :
    loadData [c8r1, c8wr2] = .ok c8wst ∧
    ((1000 : ℤ) ≤ 1970 ∧ (1970 : ℤ) ≤ 9999) ∧
    (∀ c ∈ c8wst.conversations, 1000 ≤ (civilOfEpoch c.create_time).1 ∧
      (civilOfEpoch c.create_time).1 ≤ 9999) ∧
    (getContribution c8wst 1970).days.length = (if isLeap (1970 : ℤ) then 366 else 365) :=
  ⟨by rfl, ⟨by norm_num, by norm_num⟩, by decide,
   (c6_contribution [c8r1, c8wr2] c8wst 1970 (getContribution c8wst 1970)
     (by rfl) rfl (by norm_num) (by norm_num) (by decide)).2.1⟩
